import Mathlib

/-!
Verification of the reconciliation and scheduling engine of the
`kubebuilder-tutorial` repository (a CronJob-style controller).

The embedding follows `controllers/cronjob_controller.go` (the `Reconcile`
method) and `api/v1/cronjob_webhook.go` (the `Default` admission method).
The four helpers called by `Reconcile` (`isJobFinished`,
`getScheduledTimeForJob`, `getNextSchedule`, `constructJobForCronJob`) are
not part of the provided sources; they are modelled from the specification
(sections 4.1, 4.2, 4.5 and 3) and marked as such in their doc comments.

Time is modelled as `Int` (a wall-clock instant in seconds); `nil`
timestamps are `Option Int`.  The external store is modelled by an
environment of call outcomes (`Env`).  The cron library is modelled by its
"next activation after T" operator `next : Int → Int`.
-/

/-- Completion type of a child work item.  The source encodes it as a
`JobConditionType` sentinel: `""` is an ongoing job, `JobComplete` a
succeeded one, `JobFailed` a failed one
(`cronjob_controller.go` lines 115-124). -/
inductive Completion
  | ongoing
  | complete
  | failed
  deriving DecidableEq, Repr

/-- Parse outcome of the `scheduled-at` annotation of a child work item:
absent, parsed to a timestamp, or present but malformed (RFC3339 parse
error). -/
inductive Ann
  | absent
  | parsed (t : Int)
  | malformed
  deriving DecidableEq, Repr

/-- Snapshot of one child work item (`kbatch.Job`): identity, optional
start time (`Status.StartTime`), completion type, and the
`batch.example.com/scheduled-at` annotation. -/
structure Job where
  name : Nat
  startTime : Option Int
  completion : Completion
  schedAnn : Ann
  deriving DecidableEq, Repr

/-- Concurrency policy constants.  In the source the policy is a
string-typed enum (`batch.AllowConcurrent` etc.), and the defaulting
webhook compares it against the empty string. -/
def allowConcurrent : String := "Allow"

/-- `batch.ForbidConcurrent`. -/
def forbidConcurrent : String := "Forbid"

/-- `batch.ReplaceConcurrent`. -/
def replaceConcurrent : String := "Replace"

/-- `CronJobSpec`: the configuration consumed by `Reconcile` and defaulted
by the webhook.  History limits are `*int32` in the source; here
`Option Int` with int32 arithmetic applied where the source casts. -/
structure CronJobSpec where
  schedule : String
  concurrencyPolicy : String
  suspend : Option Bool
  startingDeadlineSeconds : Option Int
  successfulJobsHistoryLimit : Option Int
  failedJobsHistoryLimit : Option Int
  deriving DecidableEq, Repr

/-- `CronJobStatus`: last scheduled time and references (by name) to
currently active child items. -/
structure CronJobStatus where
  lastScheduleTime : Option Int
  active : List Nat
  deriving DecidableEq, Repr

/-- The CronJob entity as fetched from the store. -/
structure CronJob where
  creationTimestamp : Int
  spec : CronJobSpec
  status : CronJobStatus
  deriving DecidableEq, Repr

/-- Outcome of one `r.Delete` call against the external store. -/
inductive DeleteOutcome
  | ok
  | notFound
  | failed
  deriving DecidableEq, Repr

/-- Outcome of the initial `r.Get` of the CronJob entity. -/
inductive GetOutcome
  | ok
  | notFound
  | ioError
  deriving DecidableEq, Repr

/-- Outcomes of the external-store calls made during one invocation of
`Reconcile`.  `deleteOutcome` is keyed by the job name; `newName` is the
identity the store assigns to a newly created job. -/
structure Env where
  getOutcome : GetOutcome
  listOk : Bool
  statusUpdateOk : Bool
  deleteOutcome : Nat → DeleteOutcome
  constructOk : Bool
  createOk : Bool
  newName : Nat

/-- The observable decision of one invocation of `Reconcile`: the status
patch applied (if the status update succeeded), the deletions attempted,
the deletions logged as failures, the launch performed (scheduled time of
the created job), the `RequeueAfter` duration of the returned
`ctrl.Result` (`none` when unset/zero), and whether an error was
propagated to the caller. -/
structure Decision where
  statusPatch : Option CronJobStatus
  deletions : List Nat
  deleteFailLogs : List Nat
  launch : Option Int
  requeueAfter : Option Int
  propagatedError : Bool
  deriving DecidableEq, Repr

/-- `client.IgnoreNotFound`: returns the error unless it is a not-found
error. -/
def ignoreNotFound : DeleteOutcome → Option DeleteOutcome
  | .notFound => none
  | .ok => none
  | .failed => some .failed

/-- How one delete call's outcome is handled by a given code path:
whether it is logged as a deletion failure, and whether it aborts the
invocation with a propagated error. -/
structure DeleteHandling where
  loggedFailure : Bool
  abortsInvocation : Bool
  deriving DecidableEq, Repr

/-- Failed-history trimming (`cronjob_controller.go` line 186):
`if err := r.Delete(...); client.IgnoreNotFound(err) != nil \x7b log.Error ... \x7d`,
never aborting the loop or the invocation. -/
def handleFailedHistoryDelete (o : DeleteOutcome) : DeleteHandling :=
  { loggedFailure := (ignoreNotFound o).isSome, abortsInvocation := false }

/-- Successful-history trimming (`cronjob_controller.go` line 205):
`if err := r.Delete(...); (err) != nil \x7b log.Error ... \x7d` — note the raw
`err` check, without `client.IgnoreNotFound`.  Never aborts. -/
def handleSuccessfulHistoryDelete (o : DeleteOutcome) : DeleteHandling :=
  { loggedFailure := match o with
      | .ok => false
      | _ => true,
    abortsInvocation := false }

/-- Replace-policy preemption (`cronjob_controller.go` line 280):
`if err := r.Delete(...); client.IgnoreNotFound(err) != nil \x7b log.Error ...; return ctrl.Result\x7b\x7d, err \x7d`. -/
def handleReplaceDelete (o : DeleteOutcome) : DeleteHandling :=
  { loggedFailure := (ignoreNotFound o).isSome,
    abortsInvocation := (ignoreNotFound o).isSome }

/-- The comparator passed to `sort.Slice` for history trimming
(`cronjob_controller.go` lines 173-178 and 195-200): an item with no
start time sorts before anything with a start time; otherwise
`StartTime.Before` (which is `false` whenever the argument is nil). -/
def jobLess (x y : Job) : Bool :=
  match x.startTime with
  | none => y.startTime ≠ none
  | some tx =>
    match y.startTime with
    | none => false
    | some ty => tx < ty

/-- Placeholder job for out-of-range indexing in the sort embedding (the
index arithmetic below never reaches it on the inputs used). -/
def dummyJob : Job :=
  { name := 0, startTime := none, completion := .ongoing, schedAnn := .absent }

/-- Swap the elements at positions `i` and `j` of a list (Go
`data.Swap(i, j)`). -/
def swapL (l : List Job) (i j : Nat) : List Job :=
  (l.set i (l.getD j dummyJob)).set j (l.getD i dummyJob)

/-- One step of the gap-6 shell-sort pass that Go's `sort.Slice`
(Go 1.16, the toolchain recorded in the repository's README) performs on
slices of at most 12 elements before the insertion sort:
`if data.Less(i, i-6) \x7b data.Swap(i, i-6) \x7d`. -/
def shellStep (acc : List Job) (i : Nat) : List Job :=
  if jobLess (acc.getD i dummyJob) (acc.getD (i - 6) dummyJob) then
    swapL acc i (i - 6)
  else acc

/-- The gap-6 shell pass `for i := a + 6; i < b; i++ \x7b ... \x7d` of Go 1.16
`quickSort` on the whole slice (`a = 0`, `b = length`). -/
def shellPass6 (l : List Job) : List Job :=
  (List.range' 6 (l.length - 6)).foldl shellStep l

/-- Inner loop of Go's `insertionSort`:
`for j := i; j > a && data.Less(j, j-1); j-- \x7b data.Swap(j, j-1) \x7d`. -/
def insertInner (acc : List Job) : Nat → List Job
  | 0 => acc
  | j + 1 =>
    if jobLess (acc.getD (j + 1) dummyJob) (acc.getD j dummyJob) then
      insertInner (swapL acc (j + 1) j) j
    else acc

/-- Go's `insertionSort(data, 0, len)`. -/
def insertionSortGo (l : List Job) : List Job :=
  (List.range' 1 (l.length - 1)).foldl insertInner l

/-- The exact behaviour of Go 1.16 `sort.Slice` on slices of at most 12
elements (the `b-a <= 12` branch of `quickSort`): a gap-6 shell pass
followed by insertion sort.  `sort.Slice` is documented as not stable,
and this code path indeed reorders equivalent elements. -/
def goSortSmall (l : List Job) : List Job :=
  insertionSortGo (shellPass6 l)

/-- A stable ascending sort by the same comparator.  This definition
follows the specification's words for the History Trimmer ("stable sort
required": nil start times first, ties keep input-relative order); it is
the behaviour the claims prescribe, used for comparison against the
code's unstable sort. -/
def stableInsert (x : Job) : List Job → List Job
  | [] => [x]
  | y :: ys => if jobLess y x then y :: stableInsert x ys else x :: y :: ys

/-- Stable insertion sort with the history-trimming comparator (the
specification's prescribed ordering). -/
def stableSortJobs (l : List Job) : List Job :=
  l.foldr stableInsert []

/-- Two's-complement truncation to int32, as applied by the source's
`int32(...)` casts. -/
def i32 (x : Int) : Int :=
  (x + 2147483648) % 4294967296 - 2147483648

/-- The deletion loop of history trimming (`cronjob_controller.go`
lines 180-184 / 201-204): iterate the sorted slice, breaking as soon as
`int32(i) >= int32(len(jobs)) - limit`; every job seen before the break
is deleted.  `n` is the slice length, `i` the running index. -/
def historyDeleteLoop (n lim : Int) : Nat → List Job → List Job
  | _, [] => []
  | i, j :: rest =>
    if i32 i ≥ i32 (i32 n - lim) then []
    else j :: historyDeleteLoop n lim (i + 1) rest

/-- The jobs selected for deletion from an (already sorted) finished-item
slice, given a set retention limit. -/
def selectForDeletion (sorted : List Job) (lim : Int) : List Job :=
  historyDeleteLoop sorted.length lim 0 sorted

/-- Modelled from the spec: `isJobFinished` is not part of the provided
sources.  Per section 4.2 and the design notes, the three-way completion
outcome is encoded by the job's conditions; an ongoing job yields the
empty sentinel.  Returns (finished?, finished-type), the finished-type
being the value switched on in `Reconcile` (lines 116-124). -/
def isJobFinished (j : Job) : Bool × Completion :=
  match j.completion with
  | .ongoing => (false, .ongoing)
  | c => (true, c)

/-- Modelled from the spec: `getScheduledTimeForJob` is not part of the
provided sources.  Per section 4.2, it extracts the `scheduled-at`
annotation; a missing annotation yields no time (not an error); a
malformed one is a per-item parse error. -/
def getScheduledTimeForJob (j : Job) : Except Unit (Option Int) :=
  match j.schedAnn with
  | .absent => .ok none
  | .parsed t => .ok (some t)
  | .malformed => .error ()

/-- One iteration of the classification loop in `Reconcile`
(`cronjob_controller.go` lines 115-143): route the job by finished-type
(appending to active / failed / successful), then fold its parsed
scheduled time into `mostRecentTime` (a parse error skips only this
second part, via `continue`). -/
def classifyStep (acc : List Job × List Job × List Job × Option Int) (j : Job) :
    List Job × List Job × List Job × Option Int :=
  let act := acc.1
  let succ := acc.2.1
  let fl := acc.2.2.1
  let mrt := acc.2.2.2
  let routed : List Job × List Job × List Job :=
    match (isJobFinished j).2 with
    | .ongoing => (act ++ [j], succ, fl)
    | .failed => (act, succ, fl ++ [j])
    | .complete => (act, succ ++ [j], fl)
  match getScheduledTimeForJob j with
  | .error _ => (routed.1, routed.2.1, routed.2.2, mrt)
  | .ok none => (routed.1, routed.2.1, routed.2.2, mrt)
  | .ok (some t) =>
    match mrt with
    | none => (routed.1, routed.2.1, routed.2.2, some t)
    | some mr =>
      if mr < t then (routed.1, routed.2.1, routed.2.2, some t)
      else (routed.1, routed.2.1, routed.2.2, some mr)

/-- The classification loop over the child snapshot: returns
(activeJobs, successfulJobs, failedJobs, mostRecentTime). -/
def classify (jobs : List Job) : List Job × List Job × List Job × Option Int :=
  jobs.foldl classifyStep ([], [], [], none)

/-- Status reconstruction as `Reconcile` performs it on the in-memory
object (`cronjob_controller.go` lines 145-158), starting from whatever
status was previously stored: `LastScheduleTime` is overwritten with
`mostRecentTime` (or nil), `Active` is reset to nil and rebuilt from the
active jobs.  (`reference.GetReference` is modelled as total: it derives
a reference from object metadata.) -/
def updateStatus (prior : CronJobStatus) (jobs : List Job) : CronJobStatus :=
  let c := classify jobs
  let s1 : CronJobStatus :=
    match c.2.2.2 with
    | some t => { prior with lastScheduleTime := some t }
    | none => { prior with lastScheduleTime := none }
  let s2 : CronJobStatus := { s1 with active := [] }
  c.1.foldl (fun s a => { s with active := s.active ++ [a.name] }) s2

/-- The parsed scheduled times of a snapshot, in order. -/
def parsedTimes (jobs : List Job) : List Int :=
  jobs.filterMap fun j =>
    match getScheduledTimeForJob j with
    | .ok (some t) => some t
    | _ => none

/-- One step of the maximum fold over parsed times. -/
def maxStep (t : Int) (acc : Option Int) : Option Int :=
  match acc with
  | none => some t
  | some m => some (max t m)

/-- The maximum parsed scheduled-time annotation over a snapshot, absent
if none parse (the specification's definition of
`mostRecentScheduledTime`, section 4.2). -/
def specMaxParsed (jobs : List Job) : Option Int :=
  (parsedTimes jobs).foldr maxStep none

/-- Status reconstruction as a function of the snapshot alone (no prior
status input): the specification's `reconstructStatus(S)`. -/
def reconstructStatus (jobs : List Job) : CronJobStatus :=
  { lastScheduleTime := specMaxParsed jobs,
    active := (jobs.filter fun j => j.completion == Completion.ongoing).map Job.name }

/-- Modelled from the spec: the iteration core of `computeRuns`
(section 4.1); `getNextSchedule` is not part of the provided sources.
Starting from the first activation after `lastKnownTime`, walk the
activations with the cron "next activation after T" operator, keeping
the latest one `≤ now_` as the missed run.  At most 100 activations are
collected (`fuel` starts at 100); if a 101st activation still lies at or
before `now_`, the computation fails (`ScheduleUnresolvable`). -/
def collectMissed (next : Int → Int) (now_ : Int) :
    Nat → Int → Option Int → Except Unit (Option Int)
  | fuel, t, last =>
    if now_ < t then .ok last
    else
      match fuel with
      | 0 => .error ()
      | fuel + 1 => collectMissed next now_ fuel (next t) (some t)

/-- Modelled from the spec (section 4.1):
`computeRuns(cronExpr, lastKnownTime, referenceTime) -> (missedRun, nextRun, error)`.
`missedRun` is `none` when nothing is due; `nextRun` is the first
activation after the reference time, obtained from the next-activation
operator at `now_`. -/
def computeRuns (next : Int → Int) (earliest now_ : Int) :
    Except Unit (Option Int × Int) :=
  (collectMissed next now_ 100 (next earliest) none).map fun last => (last, next now_)

/-- Modelled from the spec: `getNextSchedule` is not part of the provided
sources.  Per section 4.1, the last-known time is the later of the last
recorded scheduled time (here: the one just reconstructed onto the
in-memory object, which is what the source passes) or the entity's
creation time.  An unparseable cron expression (`sched = none`) is an
error, as is an unresolvable schedule. -/
def getNextSchedule (sched : Option (Int → Int)) (cj : CronJob)
    (reconstructedLast : Option Int) (now_ : Int) :
    Except Unit (Option Int × Int) :=
  match sched with
  | none => .error ()
  | some next =>
    let earliestTime : Int :=
      match reconstructedLast with
      | some t => max t cj.creationTimestamp
      | none => cj.creationTimestamp
    computeRuns next earliestTime now_

/-- Modelled from the spec (section 4.5 step 9, section 3): the new work
item constructed for a launch is stamped with the missed run as its
scheduled-time annotation; it has not started and is ongoing. -/
def constructJobForCronJob (nm : Nat) (scheduledTime : Int) : Job :=
  { name := nm, startTime := none, completion := .ongoing,
    schedAnn := .parsed scheduledTime }

/-- The deadline check of `Reconcile` (`cronjob_controller.go`
lines 256-259): `tooLate` iff a starting deadline is configured and
`missedRun + deadline` is before now. -/
def tooLateCheck (deadline : Option Int) (m now_ : Int) : Bool :=
  match deadline with
  | some d => decide (m + d < now_)
  | none => false

/-- Run the deletions of one history-trimming loop: every selected job is
attempted; the handler decides what is logged.  Returns (attempted
deletions, failure logs). -/
def runHistoryDeletes (handle : DeleteOutcome → DeleteHandling) (env : Env)
    (toDelete : List Job) : List Nat × List Nat :=
  toDelete.foldl
    (fun acc j =>
      let h := handle (env.deleteOutcome j.name)
      (acc.1 ++ [j.name], if h.loggedFailure then acc.2 ++ [j.name] else acc.2))
    ([], [])

/-- The Replace-policy deletion loop (`cronjob_controller.go`
lines 277-285): delete each active job in turn; a failure other than
not-found logs the error and aborts the invocation with that error.
Returns (attempted deletions, failure logs, aborted?). -/
def runReplaceDeletes (env : Env) : List Job → List Nat × List Nat × Bool
  | [] => ([], [], false)
  | j :: rest =>
    let h := handleReplaceDelete (env.deleteOutcome j.name)
    if h.abortsInvocation then ([j.name], [j.name], true)
    else
      let r := runReplaceDeletes env rest
      (j.name :: r.1, r.2.1, r.2.2)

/-- A decision with nothing in it (the `ctrl.Result\x7b\x7d, nil` early
returns before any effect). -/
def emptyDecision : Decision :=
  { statusPatch := none, deletions := [], deleteFailLogs := [],
    launch := none, requeueAfter := none, propagatedError := false }

/-- Deletions of the failed-history trimming (`cronjob_controller.go`
lines 172-192): no-op when the limit is unset, otherwise sort the failed
group and delete the leading excess: (attempted, failure logs). -/
def failedTrim (sortF : List Job → List Job) (env : Env) (cj : CronJob)
    (jobs : List Job) : List Nat × List Nat :=
  match cj.spec.failedJobsHistoryLimit with
  | none => ([], [])
  | some lim =>
    runHistoryDeletes handleFailedHistoryDelete env
      (selectForDeletion (sortF (classify jobs).2.2.1) lim)

/-- Deletions of the successful-history trimming (`cronjob_controller.go`
lines 194-211). -/
def successfulTrim (sortF : List Job → List Job) (env : Env) (cj : CronJob)
    (jobs : List Job) : List Nat × List Nat :=
  match cj.spec.successfulJobsHistoryLimit with
  | none => ([], [])
  | some lim =>
    runHistoryDeletes handleSuccessfulHistoryDelete env
      (selectForDeletion (sortF (classify jobs).2.1) lim)

/-- Result of the suspension / scheduling / concurrency / launch part of
`Reconcile` (steps 4-9, `cronjob_controller.go` lines 217-308):
launch decision, requeue duration, propagated error, plus the
Replace-policy deletions attempted and logged. -/
structure LaunchResult where
  launch : Option Int
  requeueAfter : Option Int
  propagatedError : Bool
  repDeletes : List Nat
  repLogs : List Nat
  deriving DecidableEq, Repr

/-- Steps 4-9 of `Reconcile`: bail if suspended (no requeue); compute the
schedule (no requeue and no error if it fails); standard requeue if
nothing is due, if the deadline was missed, or if Forbid blocks; under
Replace delete all active jobs first (fatal on hard failure); then
construct (non-fatal failure, standard requeue) and create (fatal
failure) the job.  `reconLast` is the just-reconstructed last scheduled
time, as stored on the in-memory object when `getNextSchedule` reads it. -/
def launchPhase (sched : Option (Int → Int)) (env : Env) (cj : CronJob)
    (activeJobs : List Job) (reconLast : Option Int) (now_ : Int) : LaunchResult :=
  -- 4: suspension: no launch, no further wake-up
  if cj.spec.suspend = some true then
    { launch := none, requeueAfter := none, propagatedError := false,
      repDeletes := [], repLogs := [] }
  else
    -- 5: schedule computation; on error, no requeue and no error
    match getNextSchedule sched cj reconLast now_ with
    | .error _ =>
      { launch := none, requeueAfter := none, propagatedError := false,
        repDeletes := [], repLogs := [] }
    | .ok (missedRun, nextRun) =>
      let scheduledRequeue : Option Int := some (nextRun - now_)
      -- 6: nothing due
      match missedRun with
      | none =>
        { launch := none, requeueAfter := scheduledRequeue,
          propagatedError := false, repDeletes := [], repLogs := [] }
      | some m =>
        -- 7: deadline check
        if tooLateCheck cj.spec.startingDeadlineSeconds m now_ then
          { launch := none, requeueAfter := scheduledRequeue,
            propagatedError := false, repDeletes := [], repLogs := [] }
        -- 8: Forbid blocks
        else if cj.spec.concurrencyPolicy = forbidConcurrent ∧ 0 < activeJobs.length then
          { launch := none, requeueAfter := scheduledRequeue,
            propagatedError := false, repDeletes := [], repLogs := [] }
        else
          -- 8: Replace preempts
          let rep : List Nat × List Nat × Bool :=
            if cj.spec.concurrencyPolicy = replaceConcurrent then
              runReplaceDeletes env activeJobs
            else ([], [], false)
          if rep.2.2 then
            { launch := none, requeueAfter := none, propagatedError := true,
              repDeletes := rep.1, repLogs := rep.2.1 }
          -- 9: construct; on failure, standard requeue without launch
          else if env.constructOk = false then
            { launch := none, requeueAfter := scheduledRequeue,
              propagatedError := false, repDeletes := rep.1, repLogs := rep.2.1 }
          -- 9: create; propagate errors
          else if env.createOk = false then
            { launch := none, requeueAfter := none, propagatedError := true,
              repDeletes := rep.1, repLogs := rep.2.1 }
          else
            { launch := some m, requeueAfter := scheduledRequeue,
              propagatedError := false, repDeletes := rep.1, repLogs := rep.2.1 }

/-- One invocation of `Reconcile` (`cronjob_controller.go` lines 73-309),
as a function of the parsed schedule (`sched`, `none` when the cron
expression does not parse), the permutation chosen by `sort.Slice`
(`sortF`, applied to each finished group), the external-call outcomes
(`env`), the fetched entity, the child snapshot, and the (injected,
fixed) clock reading. -/
def reconcile (sched : Option (Int → Int)) (sortF : List Job → List Job)
    (env : Env) (cj : CronJob) (jobs : List Job) (now_ : Int) : Decision :=
  -- 1: load the CronJob; ignore not-found, propagate other errors
  match env.getOutcome with
  | .notFound => emptyDecision
  | .ioError => { emptyDecision with propagatedError := true }
  | .ok =>
  -- 2: list child jobs; propagate errors
  if env.listOk = false then { emptyDecision with propagatedError := true }
  else
    let newStatus := updateStatus cj.status jobs
    -- status subresource update; propagate errors
    if env.statusUpdateOk = false then { emptyDecision with propagatedError := true }
    else
      -- 3: history trimming, best effort
      let fd := failedTrim sortF env cj jobs
      let sd := successfulTrim sortF env cj jobs
      -- 4-9: suspension, schedule, concurrency, launch
      let lr := launchPhase sched env cj (classify jobs).1 newStatus.lastScheduleTime now_
      { statusPatch := some newStatus,
        deletions := fd.1 ++ sd.1 ++ lr.repDeletes,
        deleteFailLogs := fd.2 ++ sd.2 ++ lr.repLogs,
        launch := lr.launch,
        requeueAfter := lr.requeueAfter,
        propagatedError := lr.propagatedError }

/-- All external calls succeed (and deletions find their target). -/
def Env.allOk (env : Env) : Prop :=
  env.getOutcome = .ok ∧ env.listOk = true ∧ env.statusUpdateOk = true ∧
  (∀ n, env.deleteOutcome n = .ok) ∧ env.constructOk = true ∧ env.createOk = true

/-- The admission defaulting of `(*CronJob).Default`
(`api/v1/cronjob_webhook.go` lines 58-78): empty concurrency policy
becomes Allow, nil suspend becomes false, nil history limits become
3 (successful) and 1 (failed). -/
def webhookDefault (s : CronJobSpec) : CronJobSpec :=
  let s1 :=
    if s.concurrencyPolicy = "" then { s with concurrencyPolicy := allowConcurrent }
    else s
  let s2 :=
    if s1.suspend = none then { s1 with suspend := some false }
    else s1
  let s3 :=
    if s2.successfulJobsHistoryLimit = none then
      { s2 with successfulJobsHistoryLimit := some 3 }
    else s2
  if s3.failedJobsHistoryLimit = none then
    { s3 with failedJobsHistoryLimit := some 1 }
  else s3

/-- A failed job with the given name and start time. -/
def mkFailed (nm : Nat) (st : Option Int) : Job :=
  { name := nm, startTime := st, completion := .failed, schedAnn := .absent }

/-- Seven failed jobs.  Positions 1 and 6 lack a start time; the rest
have distinct start times.  With a retention limit of 6, the stable
ordering the claim prescribes deletes job 1 (the first no-start-time item
in input order), while the code's sort (Go 1.16 `sort.Slice`, whose gap-6
shell pass swaps positions 6 and 0 before the insertion sort) moves job 6
ahead of job 1 and deletes job 6. -/
def c1Jobs : List Job :=
  [mkFailed 0 (some 10), mkFailed 1 none, mkFailed 2 (some 2),
   mkFailed 3 (some 3), mkFailed 4 (some 4), mkFailed 5 (some 5),
   mkFailed 6 none]

/-- The jobs of a sorted finished group that survive trimming: everything
after the deleted leading segment. -/
def retainedAfterTrim (sorted : List Job) (lim : Int) : List Job :=
  sorted.drop (selectForDeletion sorted lim).length

/-- The components of a decision other than the failure log: status
patch, attempted deletions, launch, requeue and propagated error. -/
def Decision.core (d : Decision) :
    Option CronJobStatus × List Nat × Option Int × Option Int × Bool :=
  (d.statusPatch, d.deletions, d.launch, d.requeueAfter, d.propagatedError)

/-- The parsed scheduled time of one job, if any (the value folded into
`mostRecentTime` by the classification loop). -/
def parsedOf (j : Job) : Option Int :=
  match getScheduledTimeForJob j with
  | .ok (some t) => some t
  | _ => none

/-- Maximum of two optional times. -/
def optMax : Option Int → Option Int → Option Int
  | none, y => y
  | some x, none => some x
  | some x, some y => some (max x y)

/-- An environment in which every external call succeeds. -/
def envOk : Env :=
  { getOutcome := .ok, listOk := true, statusUpdateOk := true,
    deleteOutcome := fun _ => .ok, constructOk := true, createOk := true,
    newName := 99 }

/-- A Forbid-policy CronJob with no optional fields set, created at
time 0. -/
def cjForbid : CronJob :=
  { creationTimestamp := 0,
    spec := { schedule := "*/1 * * * *", concurrencyPolicy := forbidConcurrent,
              suspend := none, startingDeadlineSeconds := none,
              successfulJobsHistoryLimit := none, failedJobsHistoryLimit := none },
    status := { lastScheduleTime := none, active := [] } }

/-- An ongoing (active) child job with no start time and no annotation. -/
def jobOngoing : Job :=
  { name := 50, startTime := none, completion := .ongoing, schedAnn := .absent }

/-- A concrete cron operator: an activation every unit of time. -/
def succNext : Int → Int := fun t => t + 1

/-- A Replace-policy CronJob with no optional fields set. -/
def cjReplace : CronJob :=
  { creationTimestamp := 0,
    spec := { schedule := "*/1 * * * *", concurrencyPolicy := replaceConcurrent,
              suspend := none, startingDeadlineSeconds := none,
              successfulJobsHistoryLimit := none, failedJobsHistoryLimit := none },
    status := { lastScheduleTime := none, active := [] } }

/-- A cron operator firing at every positive multiple of 100. -/
def next100 : Int → Int := fun t => 100 * (t / 100) + 100

/-- An Allow-policy CronJob with a starting deadline of 10 seconds. -/
def cjDeadline : CronJob :=
  { creationTimestamp := 0,
    spec := { schedule := "whatever", concurrencyPolicy := allowConcurrent,
              suspend := none, startingDeadlineSeconds := some 10,
              successfulJobsHistoryLimit := none, failedJobsHistoryLimit := none },
    status := { lastScheduleTime := none, active := [] } }

/-- A suspended CronJob (Allow policy, suspend = true). -/
def cjSuspended : CronJob :=
  { creationTimestamp := 0,
    spec := { schedule := "*/1 * * * *", concurrencyPolicy := allowConcurrent,
              suspend := some true, startingDeadlineSeconds := none,
              successfulJobsHistoryLimit := none, failedJobsHistoryLimit := none },
    status := { lastScheduleTime := none, active := [] } }


example : selectForDeletion [dummyJob, dummyJob, dummyJob] 1 = [dummyJob, dummyJob] := by decide

example : selectForDeletion [dummyJob] 3 = [] := by decide

example : (goSortSmall c1Jobs).map Job.name = [6, 1, 2, 3, 4, 5, 0] := by decide

example : (stableSortJobs c1Jobs).map Job.name = [1, 6, 2, 3, 4, 5, 0] := by decide

example : (selectForDeletion (goSortSmall c1Jobs) 6).map Job.name = [6] := by decide

example : (selectForDeletion (stableSortJobs c1Jobs) 6).map Job.name = [1] := by decide

lemma i32_of_bounds (x : Int) (h1 : -2147483648 ≤ x) (h2 : x < 2147483648) :
    i32 x = x := by
  unfold i32
  omega

lemma historyDeleteLoop_eq_take (lim n : Int) (h0 : 0 ≤ lim)
    (hlim : lim < 2147483648) (hn0 : 0 ≤ n) (hn : n < 2147483648)
    (l : List Job) :
    ∀ i : Nat, (i : Int) ≤ n →
      historyDeleteLoop n lim i l = l.take ((n - lim).toNat - i) := by
  induction l with
  | nil => intro i _; simp [historyDeleteLoop]
  | cons j rest ih =>
    intro i hi
    rw [historyDeleteLoop]
    have e1 : i32 i = (i : Int) := i32_of_bounds _ (by omega) (by omega)
    have e2 : i32 (i32 n - lim) = n - lim := by
      rw [i32_of_bounds n (by omega) hn]
      exact i32_of_bounds _ (by omega) (by omega)
    rw [e1, e2]
    by_cases hc : (i : Int) ≥ n - lim
    · rw [if_pos hc]
      have : (n - lim).toNat - i = 0 := by omega
      rw [this, List.take_zero]
    · rw [if_neg hc]
      have hrec := ih (i + 1) (by omega)
      rw [hrec]
      have : (n - lim).toNat - i = ((n - lim).toNat - (i + 1)) + 1 := by omega
      rw [this, List.take_succ_cons]

lemma selectForDeletion_eq_take (sorted : List Job) (lim : Int) (h0 : 0 ≤ lim)
    (hlim : lim < 2147483648) (hlen : (sorted.length : Int) < 2147483648) :
    selectForDeletion sorted lim =
      sorted.take (((sorted.length : Int) - lim).toNat) := by
  unfold selectForDeletion
  have h := historyDeleteLoop_eq_take lim sorted.length h0 hlim (by omega) hlen
    sorted 0 (by omega)
  simpa using h

/-- C1, counterexample.  The claim requires that two items both lacking a
start time keep their input-relative order in the trimming selection.
The source sorts with Go's `sort.Slice`, which is not stable; on slices
of at most 12 elements (Go 1.16, the toolchain recorded in the
repository's README) it runs a gap-6 shell pass and then an insertion
sort (`goSortSmall`).  On `c1Jobs` (7 failed jobs, the items at
positions 1 and 6 lacking a start time) with retention limit 6, the
shell pass swaps positions 6 and 0, so the code deletes job 6, whereas
the claim's stable tie-break (`stableSortJobs`) prescribes deleting
job 1.  The first two conjuncts confirm that `goSortSmall` really is a
comparator-sorted permutation of the input, i.e. a legitimate
`sort.Slice` outcome. -/
theorem trim_stability_counterexample :
    (goSortSmall c1Jobs).Perm c1Jobs ∧
    (goSortSmall c1Jobs).Pairwise (fun a b => jobLess b a = false) ∧
    (selectForDeletion (goSortSmall c1Jobs) 6).map Job.name = [6] ∧
    (selectForDeletion (stableSortJobs c1Jobs) 6).map Job.name = [1] ∧
    selectForDeletion (goSortSmall c1Jobs) 6 ≠
      selectForDeletion (stableSortJobs c1Jobs) 6 :=
  ⟨by decide, by decide, by decide, by decide, by decide⟩

/-- C1, amended.  For every finished-item collection of size N, every
comparator-sorted permutation `out` of it (the contract of the unstable
`sort.Slice`), and every set retention limit 0 ≤ K < 2^31 (with
N < 2^31, matching the source's int32 arithmetic): the trimmer selects
exactly max(N-K, 0) items for deletion and retains min(N, K) items, and
no retained item is older than a deleted one under the source's
comparator (no start time counting as older than any start time).  The
claim's further requirement — that two items both lacking a start time
keep input-relative order — does not hold, since the sort is not
stable (see the counterexample). -/
theorem trim_counts_and_retention (jobs out : List Job) (lim : Int)
    (hperm : out.Perm jobs)
    (hsorted : out.Pairwise (fun a b => jobLess b a = false))
    (h0 : 0 ≤ lim) (hlim : lim < 2147483648)
    (hlen : (jobs.length : Int) < 2147483648) :
    (selectForDeletion out lim).length = (max ((jobs.length : Int) - lim) 0).toNat ∧
    (retainedAfterTrim out lim).length = (min (jobs.length : Int) lim).toNat ∧
    ∀ r ∈ retainedAfterTrim out lim, ∀ d ∈ selectForDeletion out lim,
      jobLess r d = false := by
  have hl : out.length = jobs.length := hperm.length_eq
  have hsel := selectForDeletion_eq_take out lim h0 hlim (by omega)
  have hsellen : (selectForDeletion out lim).length =
      (max ((jobs.length : Int) - lim) 0).toNat := by
    rw [hsel, List.length_take]
    omega
  refine ⟨hsellen, ?_, ?_⟩
  · unfold retainedAfterTrim
    rw [List.length_drop, hsellen]
    omega
  · intro r hr d hd
    unfold retainedAfterTrim at hr
    have htake : out.take (selectForDeletion out lim).length =
        selectForDeletion out lim := by
      rw [hsel, List.take_eq_take, List.length_take]
      omega
    have hsplit := List.take_append_drop (selectForDeletion out lim).length out
    rw [htake] at hsplit
    have hpair := hsplit ▸ hsorted
    exact (List.pairwise_append.mp hpair).2.2 d hd r hr

lemma runHistoryDeletes_go (handle : DeleteOutcome → DeleteHandling) (env : Env)
    (l : List Job) :
    ∀ acc : List Nat × List Nat,
      (l.foldl
        (fun acc j =>
          let h := handle (env.deleteOutcome j.name)
          (acc.1 ++ [j.name], if h.loggedFailure then acc.2 ++ [j.name] else acc.2))
        acc).1 = acc.1 ++ l.map Job.name := by
  induction l with
  | nil => intro acc; simp
  | cons j rest ih =>
    intro acc
    simp only [List.foldl_cons, List.map_cons]
    rw [ih]
    simp

/-- Every selected job is attempted, whatever the outcomes: the attempted
deletions of a history-trimming loop are exactly the selected jobs. -/
lemma runHistoryDeletes_fst (handle : DeleteOutcome → DeleteHandling) (env : Env)
    (toDelete : List Job) :
    (runHistoryDeletes handle env toDelete).1 = toDelete.map Job.name := by
  unfold runHistoryDeletes
  simpa using runHistoryDeletes_go handle env toDelete ([], [])

lemma handleReplaceDelete_no_abort (o : DeleteOutcome) (h : o ≠ .failed) :
    handleReplaceDelete o = { loggedFailure := false, abortsInvocation := false } := by
  cases o with
  | ok => rfl
  | notFound => rfl
  | failed => exact absurd rfl h

/-- If no active-job deletion hard-fails (success or not-found
everywhere), the Replace loop deletes every active job, logs nothing and
does not abort. -/
lemma runReplaceDeletes_no_fail (env : Env) (l : List Job)
    (h : ∀ j ∈ l, env.deleteOutcome j.name ≠ .failed) :
    runReplaceDeletes env l = (l.map Job.name, [], false) := by
  induction l with
  | nil => rfl
  | cons j rest ih =>
    rw [runReplaceDeletes]
    rw [handleReplaceDelete_no_abort _ (h j (by simp))]
    rw [ih fun x hx => h x (by simp [hx])]
    simp

/-- If some active-job deletion hard-fails, the Replace loop aborts. -/
lemma runReplaceDeletes_fail (env : Env) (l : List Job)
    (h : ∃ j ∈ l, env.deleteOutcome j.name = .failed) :
    (runReplaceDeletes env l).2.2 = true := by
  induction l with
  | nil => simp at h
  | cons j rest ih =>
    rw [runReplaceDeletes]
    by_cases hj : env.deleteOutcome j.name = .failed
    · simp [handleReplaceDelete, hj, ignoreNotFound]
    · rw [handleReplaceDelete_no_abort _ hj]
      have hrest : ∃ x ∈ rest, env.deleteOutcome x.name = .failed := by
        rcases h with ⟨x, hx, ho⟩
        rcases List.mem_cons.mp hx with rfl | hx
        · exact absurd ho hj
        · exact ⟨x, hx, ho⟩
      simpa using ih hrest

/-- The launch phase does not depend on the delete outcomes as long as
none of them hard-fails. -/
lemma launchPhase_delete_outcomes (sched : Option (Int → Int)) (env : Env)
    (cj : CronJob) (activeJobs : List Job) (reconLast : Option Int) (now_ : Int)
    (d1 d2 : Nat → DeleteOutcome)
    (h1 : ∀ n, d1 n ≠ .failed) (h2 : ∀ n, d2 n ≠ .failed) :
    launchPhase sched { env with deleteOutcome := d1 } cj activeJobs reconLast now_ =
      launchPhase sched { env with deleteOutcome := d2 } cj activeJobs reconLast now_ := by
  have hrep1 : runReplaceDeletes { env with deleteOutcome := d1 } activeJobs =
      (activeJobs.map Job.name, [], false) :=
    runReplaceDeletes_no_fail _ _ fun j _ => h1 j.name
  have hrep2 : runReplaceDeletes { env with deleteOutcome := d2 } activeJobs =
      (activeJobs.map Job.name, [], false) :=
    runReplaceDeletes_no_fail _ _ fun j _ => h2 j.name
  simp [launchPhase, hrep1, hrep2]

lemma reconcile_delete_outcomes_core (sched : Option (Int → Int))
    (sortF : List Job → List Job) (env : Env) (cj : CronJob) (jobs : List Job)
    (now_ : Int) (d1 d2 : Nat → DeleteOutcome)
    (h1 : ∀ n, d1 n ≠ .failed) (h2 : ∀ n, d2 n ≠ .failed) :
    Decision.core (reconcile sched sortF { env with deleteOutcome := d1 } cj jobs now_) =
      Decision.core (reconcile sched sortF { env with deleteOutcome := d2 } cj jobs now_) := by
  have hlp := launchPhase_delete_outcomes sched env cj (classify jobs).1
    (updateStatus cj.status jobs).lastScheduleTime now_ d1 d2 h1 h2
  have hf : (failedTrim sortF { env with deleteOutcome := d1 } cj jobs).1 =
      (failedTrim sortF { env with deleteOutcome := d2 } cj jobs).1 := by
    unfold failedTrim
    cases cj.spec.failedJobsHistoryLimit <;> simp [runHistoryDeletes_fst]
  have hs : (successfulTrim sortF { env with deleteOutcome := d1 } cj jobs).1 =
      (successfulTrim sortF { env with deleteOutcome := d2 } cj jobs).1 := by
    unfold successfulTrim
    cases cj.spec.successfulJobsHistoryLimit <;> simp [runHistoryDeletes_fst]
  cases hgo : env.getOutcome
  case notFound => simp [reconcile, Decision.core, hgo]
  case ioError => simp [reconcile, Decision.core, hgo]
  case ok =>
    simp only [hgo] at hlp hf hs
    by_cases hlo : env.listOk = false
    · simp [reconcile, Decision.core, hgo, hlo]
    · by_cases hsu : env.statusUpdateOk = false
      · simp [reconcile, Decision.core, hgo, hlo, hsu]
      · have hl2 : env.listOk = true := by simpa using hlo
        have hsu2 : env.statusUpdateOk = true := by simpa using hsu
        simp only [hl2, hsu2] at hlp hf hs
        simp [reconcile, Decision.core, hgo, hl2, hsu2, hlp, hf, hs]

lemma optMax_none_right (x : Option Int) : optMax x none = x := by
  cases x <;> rfl

lemma optMax_assoc (x y z : Option Int) :
    optMax (optMax x y) z = optMax x (optMax y z) := by
  cases x <;> cases y <;> cases z <;> simp [optMax, max_assoc]

lemma if_lt_eq_max (a b : Int) : (if a < b then b else a) = max a b := by
  split
  · exact (max_eq_right (le_of_lt (by assumption))).symm
  · exact (max_eq_left (by omega)).symm

lemma specMaxParsed_cons (j : Job) (rest : List Job) :
    specMaxParsed (j :: rest) = optMax (parsedOf j) (specMaxParsed rest) := by
  unfold specMaxParsed parsedTimes parsedOf
  cases hj : getScheduledTimeForJob j with
  | error u => simp [hj, optMax]
  | ok o =>
    cases o with
    | none => simp [hj, optMax]
    | some t =>
      simp only [hj, List.filterMap_cons]
      cases hr : (rest.filterMap fun j =>
          match getScheduledTimeForJob j with
          | .ok (some t) => some t
          | _ => none).foldr maxStep none <;>
        simp [List.foldr_cons, hr, optMax, maxStep]

lemma classifyStep_eq (acc : List Job × List Job × List Job × Option Int) (j : Job) :
    classifyStep acc j =
      (acc.1 ++ (if j.completion == Completion.ongoing then [j] else []),
       acc.2.1 ++ (if j.completion == Completion.complete then [j] else []),
       acc.2.2.1 ++ (if j.completion == Completion.failed then [j] else []),
       optMax acc.2.2.2 (parsedOf j)) := by
  obtain ⟨a, s, f, m⟩ := acc
  cases hc : j.completion <;>
    cases hm : m <;>
      cases ha : j.schedAnn <;>
        simp [classifyStep, isJobFinished, getScheduledTimeForJob, parsedOf,
          optMax, hc, hm, ha]
  all_goals
    split <;> simp [Int.max_def] <;> (try split) <;> omega

lemma classify_go (jobs : List Job) :
    ∀ (a s f : List Job) (m : Option Int),
      jobs.foldl classifyStep (a, s, f, m) =
        (a ++ (jobs.filter fun j => j.completion == Completion.ongoing),
         s ++ (jobs.filter fun j => j.completion == Completion.complete),
         f ++ (jobs.filter fun j => j.completion == Completion.failed),
         optMax m (specMaxParsed jobs)) := by
  induction jobs with
  | nil =>
    intro a s f m
    simp [specMaxParsed, parsedTimes, optMax_none_right]
  | cons j rest ih =>
    intro a s f m
    simp only [List.foldl_cons, classifyStep_eq, ih, specMaxParsed_cons,
      optMax_assoc, List.filter_cons, Prod.mk.injEq]
    refine ⟨?_, ?_, ?_, trivial⟩ <;> (split <;> simp)

lemma classify_eq (jobs : List Job) :
    classify jobs =
      (jobs.filter fun j => j.completion == Completion.ongoing,
       jobs.filter fun j => j.completion == Completion.complete,
       jobs.filter fun j => j.completion == Completion.failed,
       specMaxParsed jobs) := by
  unfold classify
  rw [classify_go jobs [] [] [] none]
  simp [optMax]

lemma activeFold (l : List Job) :
    ∀ s : CronJobStatus,
      l.foldl (fun s a => { s with active := s.active ++ [a.name] }) s =
        { s with active := s.active ++ l.map Job.name } := by
  induction l with
  | nil => intro s; simp
  | cons j rest ih =>
    intro s
    simp only [List.foldl_cons, ih, List.map_cons]
    simp

/-- `updateStatus` ignores the prior status entirely: it equals the
snapshot-only reconstruction. -/
lemma updateStatus_eq (prior : CronJobStatus) (jobs : List Job) :
    updateStatus prior jobs = reconstructStatus jobs := by
  unfold updateStatus reconstructStatus
  rw [classify_eq]
  cases hm : specMaxParsed jobs <;> simp [hm, activeFold]

lemma failedTrim_status_irrel (sortF : List Job → List Job) (env : Env)
    (cj : CronJob) (s : CronJobStatus) (jobs : List Job) :
    failedTrim sortF env { cj with status := s } jobs = failedTrim sortF env cj jobs := rfl

lemma successfulTrim_status_irrel (sortF : List Job → List Job) (env : Env)
    (cj : CronJob) (s : CronJobStatus) (jobs : List Job) :
    successfulTrim sortF env { cj with status := s } jobs =
      successfulTrim sortF env cj jobs := rfl

lemma launchPhase_status_irrel (sched : Option (Int → Int)) (env : Env)
    (cj : CronJob) (s : CronJobStatus) (activeJobs : List Job)
    (reconLast : Option Int) (now_ : Int) :
    launchPhase sched env { cj with status := s } activeJobs reconLast now_ =
      launchPhase sched env cj activeJobs reconLast now_ := rfl

/-- C3: status reconstruction is a pure function of the child snapshot.
`updateStatus` (the source's in-place overwrite, lines 145-158) ignores
the prior status: it yields the same patch for any prior value, its
last-scheduled time is the maximum parsed scheduled-time annotation over
the snapshot (absent if none parse), its active list is rebuilt from
scratch from the Ongoing items, and it coincides with the snapshot-only
`reconstructStatus`.  Moreover the whole reconciliation decision is
independent of the status previously stored on the entity. -/
theorem status_reconstruction_pure :
    (∀ (p1 p2 : CronJobStatus) (jobs : List Job),
      updateStatus p1 jobs = updateStatus p2 jobs) ∧
    (∀ (p : CronJobStatus) (jobs : List Job),
      (updateStatus p jobs).lastScheduleTime = specMaxParsed jobs) ∧
    (∀ (p : CronJobStatus) (jobs : List Job),
      (updateStatus p jobs).active =
        (jobs.filter fun j => j.completion == Completion.ongoing).map Job.name) ∧
    (∀ (p : CronJobStatus) (jobs : List Job),
      updateStatus p jobs = reconstructStatus jobs) ∧
    ∀ (sched : Option (Int → Int)) (sortF : List Job → List Job) (env : Env)
      (cj : CronJob) (s1 s2 : CronJobStatus) (jobs : List Job) (now_ : Int),
      reconcile sched sortF env { cj with status := s1 } jobs now_ =
        reconcile sched sortF env { cj with status := s2 } jobs now_ := by
  refine ⟨?_, ?_, ?_, ?_, ?_⟩
  · intro p1 p2 jobs
    rw [updateStatus_eq, updateStatus_eq]
  · intro p jobs
    rw [updateStatus_eq]
    rfl
  · intro p jobs
    rw [updateStatus_eq]
    rfl
  · intro p jobs
    exact updateStatus_eq p jobs
  · intro sched sortF env cj s1 s2 jobs now_
    cases hgo : env.getOutcome <;>
      simp [reconcile, hgo, updateStatus_eq, failedTrim_status_irrel,
        successfulTrim_status_irrel, launchPhase_status_irrel]

lemma le_iterate (next : Int → Int) (hmono : ∀ t, t < next t) :
    ∀ (k : Nat) (t : Int), t ≤ next^[k] t := by
  intro k
  induction k with
  | zero => intro t; simp
  | succ n ih =>
    intro t
    rw [Function.iterate_succ_apply]
    exact le_trans (le_of_lt (hmono t)) (ih (next t))

lemma collectMissed_error_iff (next : Int → Int) (now_ : Int)
    (hmono : ∀ t, t < next t) :
    ∀ (fuel : Nat) (t : Int) (last : Option Int),
      (collectMissed next now_ fuel t last = .error ()) ↔ next^[fuel] t ≤ now_ := by
  intro fuel
  induction fuel with
  | zero =>
    intro t last
    rw [collectMissed]
    by_cases ht : now_ < t
    · simp only [if_pos ht, Function.iterate_zero, id]
      constructor
      · intro h; exact absurd h (by simp)
      · intro h; omega
    · simp only [if_neg ht, Function.iterate_zero, id]
      constructor
      · intro _; omega
      · intro _; trivial
  | succ n ih =>
    intro t last
    rw [collectMissed]
    by_cases ht : now_ < t
    · have hle := le_iterate next hmono (n + 1) t
      simp only [if_pos ht]
      constructor
      · intro h; exact absurd h (by simp)
      · intro h; omega
    · simp only [if_neg ht]
      rw [ih (next t) (some t), ← Function.iterate_succ_apply]

lemma collectMissed_ok_some (next : Int → Int) (now_ : Int)
    (hmono : ∀ t, t < next t) :
    ∀ (fuel : Nat) (t m : Int),
      t ≤ now_ →
      collectMissed next now_ fuel (next t) (some t) = .ok (some m) →
      t ≤ m ∧ m ≤ now_ ∧ now_ < next m := by
  intro fuel
  induction fuel with
  | zero =>
    intro t m ht h
    rw [collectMissed] at h
    by_cases hnt : now_ < next t
    · rw [if_pos hnt] at h
      cases h
      exact ⟨le_refl _, ht, hnt⟩
    · rw [if_neg hnt] at h
      exact absurd h (by simp)
  | succ n ih =>
    intro t m ht h
    rw [collectMissed] at h
    by_cases hnt : now_ < next t
    · rw [if_pos hnt] at h
      cases h
      exact ⟨le_refl _, ht, hnt⟩
    · rw [if_neg hnt] at h
      have hr := ih (next t) m (by omega) h
      exact ⟨le_trans (le_of_lt (hmono t)) hr.1, hr.2.1, hr.2.2⟩

lemma collectMissed_none_ok_some (next : Int → Int) (now_ : Int)
    (hmono : ∀ t, t < next t) (fuel : Nat) (e m : Int)
    (h : collectMissed next now_ fuel (next e) none = .ok (some m)) :
    e < m ∧ m ≤ now_ ∧ now_ < next m := by
  cases fuel with
  | zero =>
    rw [collectMissed] at h
    by_cases hnt : now_ < next e
    · rw [if_pos hnt] at h
      exact absurd h (by simp)
    · rw [if_neg hnt] at h
      exact absurd h (by simp)
  | succ n =>
    rw [collectMissed] at h
    by_cases hnt : now_ < next e
    · rw [if_pos hnt] at h
      exact absurd h (by simp)
    · rw [if_neg hnt] at h
      have hr := collectMissed_ok_some next now_ hmono n (next e) m (by omega) h
      exact ⟨lt_of_lt_of_le (hmono e) hr.1, hr.2⟩

lemma computeRuns_ok_some (next : Int → Int) (e now_ m nr : Int)
    (hmono : ∀ t, t < next t)
    (h : computeRuns next e now_ = .ok (some m, nr)) :
    e < m ∧ m ≤ now_ ∧ now_ < next m ∧ nr = next now_ := by
  unfold computeRuns at h
  cases hc : collectMissed next now_ 100 (next e) none with
  | error u => rw [hc] at h; exact absurd h (by simp [Except.map])
  | ok last =>
    rw [hc] at h
    simp only [Except.map] at h
    cases h
    have hr := collectMissed_none_ok_some next now_ hmono 100 e m hc
    exact ⟨hr.1, hr.2.1, hr.2.2, rfl⟩

lemma computeRuns_ok_snd (next : Int → Int) (e now_ : Int)
    (p : Option Int × Int) (h : computeRuns next e now_ = .ok p) :
    p.2 = next now_ := by
  unfold computeRuns at h
  cases hc : collectMissed next now_ 100 (next e) none with
  | error u => rw [hc] at h; exact absurd h (by simp [Except.map])
  | ok last =>
    rw [hc] at h
    simp only [Except.map] at h
    cases h
    rfl

lemma computeRuns_none (next : Int → Int) (e now_ : Int) (h : now_ < next e) :
    computeRuns next e now_ = .ok (none, next now_) := by
  unfold computeRuns
  rw [collectMissed, if_pos h]
  rfl

lemma iterate_101 (next : Int → Int) (e : Int) :
    next^[101] e = next^[100] (next e) := by
  have h : (101 : Nat) = 100 + 1 := rfl
  rw [h, Function.iterate_succ_apply]

lemma computeRuns_error_iff (next : Int → Int) (e now_ : Int)
    (hmono : ∀ t, t < next t) :
    (computeRuns next e now_ = .error ()) ↔ next^[101] e ≤ now_ := by
  rw [iterate_101]
  unfold computeRuns
  cases hc : collectMissed next now_ 100 (next e) none with
  | error u =>
    cases u
    simp only [Except.map]
    have h1 := (collectMissed_error_iff next now_ hmono 100 (next e) none).mp hc
    exact ⟨fun _ => h1, fun _ => trivial⟩
  | ok last =>
    simp only [Except.map]
    constructor
    · intro h; exact absurd h (by simp)
    · intro h
      have h2 := (collectMissed_error_iff next now_ hmono 100 (next e) none).mpr h
      rw [hc] at h2
      exact absurd h2 (by simp)

lemma reconcile_ok_eq (sched : Option (Int → Int)) (sortF : List Job → List Job)
    (env : Env) (cj : CronJob) (jobs : List Job) (now_ : Int)
    (hgo : env.getOutcome = .ok) (hlo : env.listOk = true)
    (hsu : env.statusUpdateOk = true) :
    reconcile sched sortF env cj jobs now_ =
      { statusPatch := some (updateStatus cj.status jobs),
        deletions := (failedTrim sortF env cj jobs).1 ++
          ((successfulTrim sortF env cj jobs).1 ++
            (launchPhase sched env cj (classify jobs).1
              (updateStatus cj.status jobs).lastScheduleTime now_).repDeletes),
        deleteFailLogs := (failedTrim sortF env cj jobs).2 ++
          ((successfulTrim sortF env cj jobs).2 ++
            (launchPhase sched env cj (classify jobs).1
              (updateStatus cj.status jobs).lastScheduleTime now_).repLogs),
        launch := (launchPhase sched env cj (classify jobs).1
          (updateStatus cj.status jobs).lastScheduleTime now_).launch,
        requeueAfter := (launchPhase sched env cj (classify jobs).1
          (updateStatus cj.status jobs).lastScheduleTime now_).requeueAfter,
        propagatedError := (launchPhase sched env cj (classify jobs).1
          (updateStatus cj.status jobs).lastScheduleTime now_).propagatedError } := by
  simp [reconcile, hgo, hlo, hsu]

lemma launchPhase_suspended (sched : Option (Int → Int)) (env : Env)
    (cj : CronJob) (active : List Job) (reconLast : Option Int) (now_ : Int)
    (h : cj.spec.suspend = some true) :
    launchPhase sched env cj active reconLast now_ = ⟨none, none, false, [], []⟩ := by
  simp [launchPhase, h]

lemma launchPhase_schedError (sched : Option (Int → Int)) (env : Env)
    (cj : CronJob) (active : List Job) (reconLast : Option Int) (now_ : Int)
    (hsus : ¬cj.spec.suspend = some true)
    (h : getNextSchedule sched cj reconLast now_ = .error ()) :
    launchPhase sched env cj active reconLast now_ = ⟨none, none, false, [], []⟩ := by
  simp [launchPhase, hsus, h]

lemma launchPhase_missedNone (sched : Option (Int → Int)) (env : Env)
    (cj : CronJob) (active : List Job) (reconLast : Option Int) (now_ nr : Int)
    (hsus : ¬cj.spec.suspend = some true)
    (h : getNextSchedule sched cj reconLast now_ = .ok (none, nr)) :
    launchPhase sched env cj active reconLast now_ =
      ⟨none, some (nr - now_), false, [], []⟩ := by
  simp [launchPhase, hsus, h]

lemma launchPhase_tooLate (sched : Option (Int → Int)) (env : Env)
    (cj : CronJob) (active : List Job) (reconLast : Option Int) (now_ m nr : Int)
    (hsus : ¬cj.spec.suspend = some true)
    (h : getNextSchedule sched cj reconLast now_ = .ok (some m, nr))
    (htl : tooLateCheck cj.spec.startingDeadlineSeconds m now_ = true) :
    launchPhase sched env cj active reconLast now_ =
      ⟨none, some (nr - now_), false, [], []⟩ := by
  simp [launchPhase, hsus, h, htl]

lemma launchPhase_forbid (sched : Option (Int → Int)) (env : Env)
    (cj : CronJob) (active : List Job) (reconLast : Option Int) (now_ m nr : Int)
    (hsus : ¬cj.spec.suspend = some true)
    (h : getNextSchedule sched cj reconLast now_ = .ok (some m, nr))
    (htl : tooLateCheck cj.spec.startingDeadlineSeconds m now_ = false)
    (hfb : cj.spec.concurrencyPolicy = forbidConcurrent ∧ 0 < active.length) :
    launchPhase sched env cj active reconLast now_ =
      ⟨none, some (nr - now_), false, [], []⟩ := by
  simp [launchPhase, hsus, h, htl, hfb]

lemma replace_ne_forbid : replaceConcurrent ≠ forbidConcurrent := by decide

lemma launchPhase_replaceFail (sched : Option (Int → Int)) (env : Env)
    (cj : CronJob) (active : List Job) (reconLast : Option Int) (now_ m nr : Int)
    (hsus : ¬cj.spec.suspend = some true)
    (h : getNextSchedule sched cj reconLast now_ = .ok (some m, nr))
    (htl : tooLateCheck cj.spec.startingDeadlineSeconds m now_ = false)
    (hfb : ¬(cj.spec.concurrencyPolicy = forbidConcurrent ∧ 0 < active.length))
    (hpol : cj.spec.concurrencyPolicy = replaceConcurrent)
    (hfail : ∃ j ∈ active, env.deleteOutcome j.name = .failed) :
    launchPhase sched env cj active reconLast now_ =
      ⟨none, none, true, (runReplaceDeletes env active).1,
        (runReplaceDeletes env active).2.1⟩ := by
  have habort := runReplaceDeletes_fail env active hfail
  simp [launchPhase, hsus, h, htl, hfb, hpol, habort, replace_ne_forbid]

lemma launchPhase_clean_launch (sched : Option (Int → Int)) (env : Env)
    (cj : CronJob) (active : List Job) (reconLast : Option Int) (now_ m nr : Int)
    (hsus : ¬cj.spec.suspend = some true)
    (h : getNextSchedule sched cj reconLast now_ = .ok (some m, nr))
    (htl : tooLateCheck cj.spec.startingDeadlineSeconds m now_ = false)
    (hfb : ¬(cj.spec.concurrencyPolicy = forbidConcurrent ∧ 0 < active.length))
    (hdel : ∀ j ∈ active, env.deleteOutcome j.name ≠ .failed)
    (hco : env.constructOk = true) (hcr : env.createOk = true) :
    launchPhase sched env cj active reconLast now_ =
      { launch := some m, requeueAfter := some (nr - now_),
        propagatedError := false,
        repDeletes :=
          if cj.spec.concurrencyPolicy = replaceConcurrent then active.map Job.name
          else [],
        repLogs := [] } := by
  have hrep := runReplaceDeletes_no_fail env active hdel
  by_cases hpol : cj.spec.concurrencyPolicy = replaceConcurrent <;>
    simp [launchPhase, hsus, h, htl, hfb, hpol, hrep, hco, hcr, replace_ne_forbid]

lemma reconcile_getNotFound (sched : Option (Int → Int))
    (sortF : List Job → List Job) (env : Env) (cj : CronJob) (jobs : List Job)
    (now_ : Int) (hgo : env.getOutcome = .notFound) :
    reconcile sched sortF env cj jobs now_ = emptyDecision := by
  simp [reconcile, hgo]

lemma reconcile_getIoError (sched : Option (Int → Int))
    (sortF : List Job → List Job) (env : Env) (cj : CronJob) (jobs : List Job)
    (now_ : Int) (hgo : env.getOutcome = .ioError) :
    reconcile sched sortF env cj jobs now_ =
      { emptyDecision with propagatedError := true } := by
  simp [reconcile, hgo]

lemma reconcile_listFail (sched : Option (Int → Int))
    (sortF : List Job → List Job) (env : Env) (cj : CronJob) (jobs : List Job)
    (now_ : Int) (hgo : env.getOutcome = .ok) (hlo : env.listOk = false) :
    reconcile sched sortF env cj jobs now_ =
      { emptyDecision with propagatedError := true } := by
  simp [reconcile, hgo, hlo]

lemma reconcile_statusFail (sched : Option (Int → Int))
    (sortF : List Job → List Job) (env : Env) (cj : CronJob) (jobs : List Job)
    (now_ : Int) (hgo : env.getOutcome = .ok) (hlo : env.listOk = true)
    (hsu : env.statusUpdateOk = false) :
    reconcile sched sortF env cj jobs now_ =
      { emptyDecision with propagatedError := true } := by
  simp [reconcile, hgo, hlo, hsu]

/-- Under the Forbid guard, the launch phase never launches, whatever
branch it takes. -/
lemma launchPhase_forbid_launch_none (sched : Option (Int → Int)) (env : Env)
    (cj : CronJob) (active : List Job) (reconLast : Option Int) (now_ : Int)
    (hfb : cj.spec.concurrencyPolicy = forbidConcurrent)
    (hact : 0 < active.length) :
    (launchPhase sched env cj active reconLast now_).launch = none := by
  by_cases hsus : cj.spec.suspend = some true
  · rw [launchPhase_suspended sched env cj active reconLast now_ hsus]
  · cases hns : getNextSchedule sched cj reconLast now_ with
    | error u =>
      cases u
      rw [launchPhase_schedError sched env cj active reconLast now_ hsus hns]
    | ok p =>
      obtain ⟨mr, nr⟩ := p
      cases mr with
      | none => rw [launchPhase_missedNone sched env cj active reconLast now_ nr hsus hns]
      | some m =>
        by_cases htl : tooLateCheck cj.spec.startingDeadlineSeconds m now_ = true
        · rw [launchPhase_tooLate sched env cj active reconLast now_ m nr hsus hns htl]
        · rw [launchPhase_forbid sched env cj active reconLast now_ m nr hsus hns
            (by simpa using htl) ⟨hfb, hact⟩]

/-- C4: whenever the concurrency policy is Forbid and the classified
active group is non-empty, the invocation launches nothing — in every
branch, including error and suspension branches; and in the normal case
(no I/O failure, not suspended, schedule computed as `p`) the decision
is exactly the standard requeue `p.2 - now` with no propagated error and
no launch. -/
theorem forbid_active_blocks_launch (sched : Option (Int → Int))
    (sortF : List Job → List Job) (env : Env) (cj : CronJob) (jobs : List Job)
    (now_ : Int)
    (hfb : cj.spec.concurrencyPolicy = forbidConcurrent)
    (hact : 0 < (classify jobs).1.length) :
    (reconcile sched sortF env cj jobs now_).launch = none ∧
    ∀ p : Option Int × Int,
      env.getOutcome = .ok → env.listOk = true → env.statusUpdateOk = true →
      ¬cj.spec.suspend = some true →
      getNextSchedule sched cj (updateStatus cj.status jobs).lastScheduleTime now_ =
        .ok p →
      (reconcile sched sortF env cj jobs now_).requeueAfter = some (p.2 - now_) ∧
      (reconcile sched sortF env cj jobs now_).propagatedError = false := by
  constructor
  · cases hgo : env.getOutcome with
    | notFound => rw [reconcile_getNotFound sched sortF env cj jobs now_ hgo]; rfl
    | ioError => rw [reconcile_getIoError sched sortF env cj jobs now_ hgo]; rfl
    | ok =>
      by_cases hlo : env.listOk = false
      · rw [reconcile_listFail sched sortF env cj jobs now_ hgo hlo]; rfl
      · by_cases hsu : env.statusUpdateOk = false
        · rw [reconcile_statusFail sched sortF env cj jobs now_ hgo
            (by simpa using hlo) hsu]
          rfl
        · rw [reconcile_ok_eq sched sortF env cj jobs now_ hgo (by simpa using hlo)
            (by simpa using hsu)]
          exact launchPhase_forbid_launch_none sched env cj (classify jobs).1
            (updateStatus cj.status jobs).lastScheduleTime now_ hfb hact
  · intro p hgo hlo hsu hsus hns
    rw [reconcile_ok_eq sched sortF env cj jobs now_ hgo hlo hsu]
    obtain ⟨mr, nr⟩ := p
    cases mr with
    | none =>
      rw [launchPhase_missedNone sched env cj (classify jobs).1
        (updateStatus cj.status jobs).lastScheduleTime now_ nr hsus hns]
      exact ⟨rfl, rfl⟩
    | some m =>
      by_cases htl : tooLateCheck cj.spec.startingDeadlineSeconds m now_ = true
      · rw [launchPhase_tooLate sched env cj (classify jobs).1
          (updateStatus cj.status jobs).lastScheduleTime now_ m nr hsus hns htl]
        exact ⟨rfl, rfl⟩
      · rw [launchPhase_forbid sched env cj (classify jobs).1
          (updateStatus cj.status jobs).lastScheduleTime now_ m nr hsus hns
          (by simpa using htl) ⟨hfb, hact⟩]
        exact ⟨rfl, rfl⟩

/-- Witness for `forbid_active_blocks_launch`: a Forbid CronJob with one
ongoing child, a one-unit cron operator, clock at 1. -/
theorem forbid_active_blocks_launch_witness :
    (cjForbid.spec.concurrencyPolicy = forbidConcurrent ∧
      0 < (classify [jobOngoing]).1.length) ∧
    (reconcile (some succNext) stableSortJobs envOk cjForbid [jobOngoing] 1).launch =
      none ∧
    (reconcile (some succNext) stableSortJobs envOk cjForbid [jobOngoing] 1).requeueAfter =
      some ((1 + 1) - 1) ∧
    (reconcile (some succNext) stableSortJobs envOk cjForbid [jobOngoing] 1).propagatedError =
      false := by
  have h := forbid_active_blocks_launch (some succNext) stableSortJobs envOk
    cjForbid [jobOngoing] 1 rfl (by decide)
  have h2 := h.2 (some 1, 1 + 1) rfl rfl rfl (by decide) rfl
  exact ⟨⟨rfl, by decide⟩, h.1, h2.1, h2.2⟩

lemma launchPhase_replace_ok (sched : Option (Int → Int)) (env : Env)
    (cj : CronJob) (active : List Job) (reconLast : Option Int) (now_ m nr : Int)
    (hsus : ¬cj.spec.suspend = some true)
    (hns : getNextSchedule sched cj reconLast now_ = .ok (some m, nr))
    (htl : tooLateCheck cj.spec.startingDeadlineSeconds m now_ = false)
    (hfb : ¬(cj.spec.concurrencyPolicy = forbidConcurrent ∧ 0 < active.length))
    (hpol : cj.spec.concurrencyPolicy = replaceConcurrent)
    (hdel : ∀ j ∈ active, env.deleteOutcome j.name ≠ .failed) :
    (launchPhase sched env cj active reconLast now_).repDeletes =
      active.map Job.name ∧
    (env.constructOk = true → env.createOk = true →
      launchPhase sched env cj active reconLast now_ =
        { launch := some m, requeueAfter := some (nr - now_),
          propagatedError := false, repDeletes := active.map Job.name,
          repLogs := [] }) := by
  have hrep := runReplaceDeletes_no_fail env active hdel
  constructor
  · by_cases hco : env.constructOk = false
    · simp [launchPhase, hsus, hns, htl, hpol, hrep, hco, replace_ne_forbid]
    · by_cases hcr : env.createOk = false
      · simp [launchPhase, hsus, hns, htl, hpol, hrep, hco, hcr, replace_ne_forbid]
      · simp [launchPhase, hsus, hns, htl, hpol, hrep, hco, hcr, replace_ne_forbid]
  · intro hco hcr
    simp [launchPhase, hsus, hns, htl, hpol, hrep, hco, hcr, replace_ne_forbid]

/-- C5: under the Replace policy, when a run is due (schedule computed a
missed run, not past the deadline, normal I/O): if some active-job
deletion hard-fails (not not-found), the error is propagated, nothing is
launched and no requeue is set; if no deletion hard-fails, every
currently active job is among the attempted deletions, and (when
construction and creation succeed) the new job is launched for the
missed run. -/
theorem replace_preempts_before_launch (sched : Option (Int → Int))
    (sortF : List Job → List Job) (env : Env) (cj : CronJob) (jobs : List Job)
    (now_ m nr : Int)
    (hgo : env.getOutcome = .ok) (hlo : env.listOk = true)
    (hsu : env.statusUpdateOk = true)
    (hsus : ¬cj.spec.suspend = some true)
    (hns : getNextSchedule sched cj (updateStatus cj.status jobs).lastScheduleTime now_ =
      .ok (some m, nr))
    (htl : tooLateCheck cj.spec.startingDeadlineSeconds m now_ = false)
    (hpol : cj.spec.concurrencyPolicy = replaceConcurrent) :
    ((∃ j ∈ (classify jobs).1, env.deleteOutcome j.name = .failed) →
      (reconcile sched sortF env cj jobs now_).propagatedError = true ∧
      (reconcile sched sortF env cj jobs now_).launch = none ∧
      (reconcile sched sortF env cj jobs now_).requeueAfter = none) ∧
    ((∀ j ∈ (classify jobs).1, env.deleteOutcome j.name ≠ .failed) →
      (∀ j ∈ (classify jobs).1, j.name ∈ (reconcile sched sortF env cj jobs now_).deletions) ∧
      (env.constructOk = true → env.createOk = true →
        (reconcile sched sortF env cj jobs now_).launch = some m)) := by
  have hfb : ¬(cj.spec.concurrencyPolicy = forbidConcurrent ∧
      0 < (classify jobs).1.length) := by
    simp [hpol, replace_ne_forbid]
  rw [reconcile_ok_eq sched sortF env cj jobs now_ hgo hlo hsu]
  constructor
  · intro hfail
    rw [launchPhase_replaceFail sched env cj (classify jobs).1
      (updateStatus cj.status jobs).lastScheduleTime now_ m nr hsus hns htl hfb
      hpol hfail]
    exact ⟨rfl, rfl, rfl⟩
  · intro hdel
    have hro := launchPhase_replace_ok sched env cj (classify jobs).1
      (updateStatus cj.status jobs).lastScheduleTime now_ m nr hsus hns htl hfb
      hpol hdel
    constructor
    · intro j hj
      simp only [hro.1, List.mem_append]
      exact Or.inr (Or.inr (List.mem_map_of_mem Job.name hj))
    · intro hco hcr
      rw [hro.2 hco hcr]

/-- Witness for `replace_preempts_before_launch`: a Replace CronJob with
one ongoing child; the preempting deletion succeeds and the new job is
launched for the missed run. -/
theorem replace_preempts_before_launch_witness :
    (cjReplace.spec.concurrencyPolicy = replaceConcurrent ∧
      tooLateCheck cjReplace.spec.startingDeadlineSeconds 1 1 = false) ∧
    jobOngoing.name ∈ (reconcile (some succNext) stableSortJobs envOk cjReplace
      [jobOngoing] 1).deletions ∧
    (reconcile (some succNext) stableSortJobs envOk cjReplace [jobOngoing] 1).launch =
      some 1 := by
  have h := (replace_preempts_before_launch (some succNext) stableSortJobs envOk
    cjReplace [jobOngoing] 1 1 (1 + 1) rfl rfl rfl (by decide) rfl rfl rfl).2
    (by decide)
  exact ⟨⟨rfl, rfl⟩, h.1 jobOngoing (by decide), h.2 rfl rfl⟩

/-- C6: when a starting deadline is configured and
`missedRun + deadline < now`, the invocation launches nothing and
terminates with the standard requeue `nextRun - now` and no error — the
missed activation is silently absorbed. -/
theorem deadline_miss_absorbed (sched : Option (Int → Int))
    (sortF : List Job → List Job) (env : Env) (cj : CronJob) (jobs : List Job)
    (now_ m nr d : Int)
    (hgo : env.getOutcome = .ok) (hlo : env.listOk = true)
    (hsu : env.statusUpdateOk = true)
    (hsus : ¬cj.spec.suspend = some true)
    (hns : getNextSchedule sched cj (updateStatus cj.status jobs).lastScheduleTime now_ =
      .ok (some m, nr))
    (hd : cj.spec.startingDeadlineSeconds = some d)
    (hlate : m + d < now_) :
    (reconcile sched sortF env cj jobs now_).launch = none ∧
    (reconcile sched sortF env cj jobs now_).requeueAfter = some (nr - now_) ∧
    (reconcile sched sortF env cj jobs now_).propagatedError = false := by
  have htl : tooLateCheck cj.spec.startingDeadlineSeconds m now_ = true := by
    simp [tooLateCheck, hd, hlate]
  rw [reconcile_ok_eq sched sortF env cj jobs now_ hgo hlo hsu]
  rw [launchPhase_tooLate sched env cj (classify jobs).1
    (updateStatus cj.status jobs).lastScheduleTime now_ m nr hsus hns htl]
  exact ⟨rfl, rfl, rfl⟩

/-- Witness for `deadline_miss_absorbed`: activations every 100 units,
deadline 10, clock at 150 — the missed run at 100 is 50 units stale,
past the 10-unit deadline; requeue in 50 units (next activation 200). -/
theorem deadline_miss_absorbed_witness :
    (cjDeadline.spec.startingDeadlineSeconds = some 10 ∧ (100 : Int) + 10 < 150) ∧
    (reconcile (some next100) stableSortJobs envOk cjDeadline [] 150).launch = none ∧
    (reconcile (some next100) stableSortJobs envOk cjDeadline [] 150).requeueAfter =
      some (200 - 150) ∧
    (reconcile (some next100) stableSortJobs envOk cjDeadline [] 150).propagatedError =
      false := by
  have h := deadline_miss_absorbed (some next100) stableSortJobs envOk cjDeadline
    [] 150 100 200 10 rfl rfl rfl (by decide) rfl rfl (by decide)
  exact ⟨⟨rfl, by decide⟩, h⟩

/-- C7: the schedule computation is bounded.  `computeRuns` fails with
the `ScheduleUnresolvable` error exactly when more than 100 activations
lie in the window — i.e. when the 101st activation after the last-known
time is still at or before the reference time — and never iterates the
cron operator beyond that bound (it is a total function of fuel 100);
when it fails, the engine terminates with no launch, no requeue, and no
propagated error. -/
theorem computeRuns_bound (next : Int → Int) (e now_ : Int)
    (hmono : ∀ t, t < next t) :
    ((computeRuns next e now_ = .error ()) ↔ next^[101] e ≤ now_) ∧
    ∀ (sortF : List Job → List Job) (env : Env) (cj : CronJob) (jobs : List Job),
      env.getOutcome = .ok → env.listOk = true → env.statusUpdateOk = true →
      ¬cj.spec.suspend = some true →
      getNextSchedule (some next) cj (updateStatus cj.status jobs).lastScheduleTime now_ =
        .error () →
      (reconcile (some next) sortF env cj jobs now_).launch = none ∧
      (reconcile (some next) sortF env cj jobs now_).requeueAfter = none ∧
      (reconcile (some next) sortF env cj jobs now_).propagatedError = false := by
  refine ⟨computeRuns_error_iff next e now_ hmono, ?_⟩
  intro sortF env cj jobs hgo hlo hsu hsus hns
  rw [reconcile_ok_eq (some next) sortF env cj jobs now_ hgo hlo hsu]
  rw [launchPhase_schedError (some next) env cj (classify jobs).1
    (updateStatus cj.status jobs).lastScheduleTime now_ hsus hns]
  exact ⟨rfl, rfl, rfl⟩

set_option maxRecDepth 4000 in
/-- Witness for `computeRuns_bound`: a unit-step cron operator from 0
with the clock at 500 — far more than 100 activations in the gap — fails
and leaves the engine with no launch and no requeue. -/
theorem computeRuns_bound_witness :
    (∀ t : Int, t < succNext t) ∧
    computeRuns succNext 0 500 = .error () ∧
    (reconcile (some succNext) stableSortJobs envOk cjForbid [] 500).launch = none ∧
    (reconcile (some succNext) stableSortJobs envOk cjForbid [] 500).requeueAfter =
      none ∧
    (reconcile (some succNext) stableSortJobs envOk cjForbid [] 500).propagatedError =
      false := by
  have hmono : ∀ t : Int, t < succNext t := fun t => by
    unfold succNext
    omega
  have h := computeRuns_bound succNext 0 500 hmono
  have herr : computeRuns succNext 0 500 = .error () := h.1.mpr (by decide)
  have h2 := h.2 stableSortJobs envOk cjForbid [] rfl rfl rfl (by decide) herr
  exact ⟨hmono, herr, h2⟩

/-- C8, counterexample.  A suspended entity with a perfectly computable
schedule terminates with NO requeue (`ctrl.Result\x7b\x7d, nil` at
`cronjob_controller.go` line 219) and no error — refuting the claim
that the requeue-after is set in every case except when the schedule
cannot be computed. -/
theorem suspended_requeue_unset :
    (reconcile (some succNext) stableSortJobs envOk cjSuspended [] 1).requeueAfter =
      none ∧
    (reconcile (some succNext) stableSortJobs envOk cjSuspended [] 1).propagatedError =
      false ∧
    getNextSchedule (some succNext) cjSuspended
      (updateStatus cjSuspended.status []).lastScheduleTime 1 = .ok (some 1, 1 + 1) :=
  ⟨rfl, rfl, rfl⟩

/-- In the tail of the launch phase (run due, not too late, not blocked
by Forbid), the requeue is either the standard one with no error, or
unset with a propagated error. -/
lemma launchPhase_tail (sched : Option (Int → Int)) (env : Env) (cj : CronJob)
    (active : List Job) (reconLast : Option Int) (now_ m nr : Int)
    (hsus : ¬cj.spec.suspend = some true)
    (hns : getNextSchedule sched cj reconLast now_ = .ok (some m, nr))
    (htl : tooLateCheck cj.spec.startingDeadlineSeconds m now_ = false)
    (hfb : ¬(cj.spec.concurrencyPolicy = forbidConcurrent ∧ 0 < active.length)) :
    ((launchPhase sched env cj active reconLast now_).requeueAfter =
        some (nr - now_) ∧
      (launchPhase sched env cj active reconLast now_).propagatedError = false) ∨
    ((launchPhase sched env cj active reconLast now_).requeueAfter = none ∧
      (launchPhase sched env cj active reconLast now_).propagatedError = true) := by
  by_cases habort : (if cj.spec.concurrencyPolicy = replaceConcurrent then
      runReplaceDeletes env active else ([], [], false)).2.2 = true
  · right
    constructor <;> simp [launchPhase, hsus, hns, htl, hfb, habort]
  · by_cases hco : env.constructOk = false
    · left
      constructor <;> simp [launchPhase, hsus, hns, htl, hfb, habort, hco]
    · by_cases hcr : env.createOk = false
      · right
        constructor <;> simp [launchPhase, hsus, hns, htl, hfb, habort, hco, hcr]
      · left
        constructor <;> simp [launchPhase, hsus, hns, htl, hfb, habort, hco, hcr]

lemma getNextSchedule_ok_snd (next : Int → Int) (cj : CronJob)
    (reconLast : Option Int) (now_ : Int) (p : Option Int × Int)
    (h : getNextSchedule (some next) cj reconLast now_ = .ok p) :
    p.2 = next now_ := by
  unfold getNextSchedule at h
  exact computeRuns_ok_snd next _ now_ p h

/-- For any reconciliation decision: when the requeue-after is set it is
the non-negative duration to the next activation; when it is unset, one
of the following holds: the entity was not found, the entity is
suspended, the schedule could not be computed, or the invocation
propagated an error for retry. -/
lemma reconcile_requeue_char (next : Int → Int) (sortF : List Job → List Job)
    (env : Env) (cj : CronJob) (jobs : List Job) (now_ : Int)
    (hmono : ∀ t, t < next t) :
    (∀ d : Int,
      (reconcile (some next) sortF env cj jobs now_).requeueAfter = some d →
      0 ≤ d) ∧
    ((reconcile (some next) sortF env cj jobs now_).requeueAfter = none →
      env.getOutcome = .notFound ∨
      cj.spec.suspend = some true ∨
      getNextSchedule (some next) cj (updateStatus cj.status jobs).lastScheduleTime now_ =
        .error () ∨
      (reconcile (some next) sortF env cj jobs now_).propagatedError = true) := by
  cases hgo : env.getOutcome with
  | notFound =>
    rw [reconcile_getNotFound (some next) sortF env cj jobs now_ hgo]
    exact ⟨fun d hd => absurd hd (by simp [emptyDecision]), fun _ => Or.inl rfl⟩
  | ioError =>
    rw [reconcile_getIoError (some next) sortF env cj jobs now_ hgo]
    exact ⟨fun d hd => absurd hd (by simp [emptyDecision]),
      fun _ => Or.inr (Or.inr (Or.inr rfl))⟩
  | ok =>
    by_cases hlo : env.listOk = false
    · rw [reconcile_listFail (some next) sortF env cj jobs now_ hgo hlo]
      exact ⟨fun d hd => absurd hd (by simp [emptyDecision]),
        fun _ => Or.inr (Or.inr (Or.inr rfl))⟩
    · by_cases hsu : env.statusUpdateOk = false
      · rw [reconcile_statusFail (some next) sortF env cj jobs now_ hgo
          (by simpa using hlo) hsu]
        exact ⟨fun d hd => absurd hd (by simp [emptyDecision]),
          fun _ => Or.inr (Or.inr (Or.inr rfl))⟩
      · rw [reconcile_ok_eq (some next) sortF env cj jobs now_ hgo
          (by simpa using hlo) (by simpa using hsu)]
        by_cases hsus : cj.spec.suspend = some true
        · rw [launchPhase_suspended (some next) env cj (classify jobs).1
            (updateStatus cj.status jobs).lastScheduleTime now_ hsus]
          exact ⟨fun d hd => absurd hd (by simp), fun _ => Or.inr (Or.inl hsus)⟩
        · cases hns : getNextSchedule (some next) cj
              (updateStatus cj.status jobs).lastScheduleTime now_ with
          | error u =>
            cases u
            rw [launchPhase_schedError (some next) env cj (classify jobs).1
              (updateStatus cj.status jobs).lastScheduleTime now_ hsus hns]
            exact ⟨fun d hd => absurd hd (by simp),
              fun _ => Or.inr (Or.inr (Or.inl rfl))⟩
          | ok p =>
            obtain ⟨mr, nr⟩ := p
            have hnr : nr = next now_ :=
              getNextSchedule_ok_snd next cj
                (updateStatus cj.status jobs).lastScheduleTime now_ (mr, nr) hns
            have hd0 : 0 ≤ nr - now_ := by
              have := hmono now_
              omega
            cases mr with
            | none =>
              rw [launchPhase_missedNone (some next) env cj (classify jobs).1
                (updateStatus cj.status jobs).lastScheduleTime now_ nr hsus hns]
              refine ⟨?_, fun hd => absurd hd (by simp)⟩
              intro d hd
              simp only [Option.some.injEq] at hd
              omega
            | some m =>
              by_cases htl : tooLateCheck cj.spec.startingDeadlineSeconds m now_ = true
              · rw [launchPhase_tooLate (some next) env cj (classify jobs).1
                  (updateStatus cj.status jobs).lastScheduleTime now_ m nr hsus hns htl]
                refine ⟨?_, fun hd => absurd hd (by simp)⟩
                intro d hd
                simp only [Option.some.injEq] at hd
                omega
              · by_cases hfb : cj.spec.concurrencyPolicy = forbidConcurrent ∧
                    0 < (classify jobs).1.length
                · rw [launchPhase_forbid (some next) env cj (classify jobs).1
                    (updateStatus cj.status jobs).lastScheduleTime now_ m nr hsus hns
                    (by simpa using htl) hfb]
                  refine ⟨?_, fun hd => absurd hd (by simp)⟩
                  intro d hd
                  simp only [Option.some.injEq] at hd
                  omega
                · rcases launchPhase_tail (some next) env cj (classify jobs).1
                      (updateStatus cj.status jobs).lastScheduleTime now_ m nr hsus hns
                      (by simpa using htl) hfb with hcase | hcase
                  · refine ⟨?_, fun hd => ?_⟩
                    · intro d hd
                      rw [hcase.1] at hd
                      simp only [Option.some.injEq] at hd
                      omega
                    · rw [hcase.1] at hd
                      exact absurd hd (by simp)
                  · exact ⟨fun d hd => absurd (hcase.1 ▸ hd) (by simp),
                      fun _ => Or.inr (Or.inr (Or.inr hcase.2))⟩

/-- C8, amended.  The requeue-after duration is non-negative whenever it
is set, and it is set in every case except: the entity was not found,
the entity is suspended, the schedule cannot be computed, or a transient
I/O failure (list, status update, Replace deletion, create) aborted the
invocation with a propagated error. -/
theorem requeue_nonneg_and_set (next : Int → Int) (sortF : List Job → List Job)
    (env : Env) (cj : CronJob) (jobs : List Job) (now_ : Int)
    (hmono : ∀ t, t < next t) :
    (∀ d : Int,
      (reconcile (some next) sortF env cj jobs now_).requeueAfter = some d →
      0 ≤ d) ∧
    ((reconcile (some next) sortF env cj jobs now_).requeueAfter = none →
      env.getOutcome = .notFound ∨
      cj.spec.suspend = some true ∨
      getNextSchedule (some next) cj (updateStatus cj.status jobs).lastScheduleTime now_ =
        .error () ∨
      (reconcile (some next) sortF env cj jobs now_).propagatedError = true) :=
  reconcile_requeue_char next sortF env cj jobs now_ hmono

/-- Witness for `requeue_nonneg_and_set`: the Forbid fixture at clock 1,
whose requeue is 1 (non-negative). -/
theorem requeue_nonneg_and_set_witness :
    (∀ t : Int, t < succNext t) ∧
    (0 : Int) ≤ 1 ∧
    (reconcile (some succNext) stableSortJobs envOk cjForbid [jobOngoing] 1).requeueAfter =
      some 1 := by
  have hmono : ∀ t : Int, t < succNext t := fun t => by
    unfold succNext
    omega
  have hval : (reconcile (some succNext) stableSortJobs envOk cjForbid
      [jobOngoing] 1).requeueAfter = some 1 := by decide
  exact ⟨hmono, (requeue_nonneg_and_set succNext stableSortJobs envOk cjForbid
    [jobOngoing] 1 hmono).1 1 hval, hval⟩

lemma updateStatus_last (prior : CronJobStatus) (jobs : List Job) :
    (updateStatus prior jobs).lastScheduleTime = specMaxParsed jobs := by
  rw [updateStatus_eq]
  rfl

lemma foldr_maxStep_ne_none (ts : List Int) (t : Int) (acc : Option Int) :
    maxStep t acc ≠ none := by
  cases acc <;> simp [maxStep]

lemma foldr_maxStep_none_iff (ts : List Int) :
    ts.foldr maxStep none = none ↔ ts = [] := by
  cases ts with
  | nil => simp
  | cons t rest =>
    simp only [List.foldr_cons]
    exact ⟨fun h => absurd h (foldr_maxStep_ne_none rest t _), fun h => by simp at h⟩

lemma foldr_maxStep_mem_le (ts : List Int) :
    ∀ M : Int, ts.foldr maxStep none = some M → ∀ t ∈ ts, t ≤ M := by
  induction ts with
  | nil => intro M _ t ht; simp at ht
  | cons x rest ih =>
    intro M h t ht
    simp only [List.foldr_cons] at h
    cases hr : rest.foldr maxStep none with
    | none =>
      rw [hr] at h
      simp only [maxStep] at h
      cases h
      have : rest = [] := (foldr_maxStep_none_iff rest).mp hr
      subst this
      simp at ht
      omega
    | some Mr =>
      rw [hr] at h
      simp only [maxStep] at h
      cases h
      rcases List.mem_cons.mp ht with rfl | ht2
      · exact le_max_left _ _
      · exact le_trans (ih Mr hr t ht2) (le_max_right _ _)

lemma foldr_maxStep_base_absorb (ts : List Int) (v : Int)
    (h : ∀ t ∈ ts, t ≤ v) : ts.foldr maxStep (some v) = some v := by
  induction ts with
  | nil => rfl
  | cons x rest ih =>
    simp only [List.foldr_cons]
    rw [ih fun t ht => h t (by simp [ht])]
    simp only [maxStep]
    rw [max_eq_right (h x (by simp))]

lemma parsedTimes_append (l1 l2 : List Job) :
    parsedTimes (l1 ++ l2) = parsedTimes l1 ++ parsedTimes l2 := by
  unfold parsedTimes
  exact List.filterMap_append l1 l2 _

lemma parsedTimes_filter_mem (jobs : List Job) (q : Job → Bool) (t : Int)
    (h : t ∈ parsedTimes (jobs.filter q)) : t ∈ parsedTimes jobs := by
  unfold parsedTimes at h ⊢
  exact ((List.filter_sublist jobs).filterMap _).subset h

/-- The reconstructed last-scheduled time of the post-launch snapshot:
any sub-collection of the old snapshot plus the newly constructed job
(annotated with the missed run `m`) has maximum parsed time exactly `m`,
provided every old parsed time is at most `e1 < m`. -/
lemma specMaxParsed_post (jobs : List Job) (q : Job → Bool) (nm : Nat)
    (m e1 : Int) (hbound : ∀ t ∈ parsedTimes jobs, t ≤ e1) (hlt : e1 < m) :
    specMaxParsed (jobs.filter q ++ [constructJobForCronJob nm m]) = some m := by
  unfold specMaxParsed
  rw [parsedTimes_append]
  have hnew : parsedTimes [constructJobForCronJob nm m] = [m] := rfl
  rw [hnew, List.foldr_append]
  have hbase : ([m] : List Int).foldr maxStep none = some m := rfl
  rw [hbase]
  exact foldr_maxStep_base_absorb _ m fun t ht =>
    le_of_lt (lt_of_le_of_lt (hbound t (parsedTimes_filter_mem jobs q t ht)) hlt)

/-- In the tail of the launch phase, either nothing is launched, or the
missed run `m2` is launched with the standard requeue and no error. -/
lemma launchPhase_tail_launch (sched : Option (Int → Int)) (env : Env)
    (cj : CronJob) (active : List Job) (reconLast : Option Int)
    (now_ m2 nr : Int)
    (hsus : ¬cj.spec.suspend = some true)
    (hns : getNextSchedule sched cj reconLast now_ = .ok (some m2, nr))
    (htl : tooLateCheck cj.spec.startingDeadlineSeconds m2 now_ = false)
    (hfb : ¬(cj.spec.concurrencyPolicy = forbidConcurrent ∧ 0 < active.length)) :
    (launchPhase sched env cj active reconLast now_).launch = none ∨
    ((launchPhase sched env cj active reconLast now_).launch = some m2 ∧
      (launchPhase sched env cj active reconLast now_).requeueAfter =
        some (nr - now_) ∧
      (launchPhase sched env cj active reconLast now_).propagatedError = false) := by
  by_cases habort : (if cj.spec.concurrencyPolicy = replaceConcurrent then
      runReplaceDeletes env active else ([], [], false)).2.2 = true
  · left
    simp [launchPhase, hsus, hns, htl, hfb, habort]
  · by_cases hco : env.constructOk = false
    · left
      simp [launchPhase, hsus, hns, htl, hfb, habort, hco]
    · by_cases hcr : env.createOk = false
      · left
        simp [launchPhase, hsus, hns, htl, hfb, habort, hco, hcr]
      · right
        refine ⟨?_, ?_, ?_⟩ <;>
          simp [launchPhase, hsus, hns, htl, hfb, habort, hco, hcr]

/-- Inverting a launch: it can only come from the final branch, with the
schedule having produced exactly that missed run, and the decision
carrying the standard requeue and no error. -/
lemma launchPhase_launch_inv (sched : Option (Int → Int)) (env : Env)
    (cj : CronJob) (active : List Job) (reconLast : Option Int) (now_ : Int)
    (m : Int)
    (h : (launchPhase sched env cj active reconLast now_).launch = some m) :
    ¬cj.spec.suspend = some true ∧
    ∃ nr, getNextSchedule sched cj reconLast now_ = .ok (some m, nr) ∧
      (launchPhase sched env cj active reconLast now_).requeueAfter =
        some (nr - now_) ∧
      (launchPhase sched env cj active reconLast now_).propagatedError = false := by
  by_cases hsus : cj.spec.suspend = some true
  · rw [launchPhase_suspended sched env cj active reconLast now_ hsus] at h
    exact absurd h (by simp)
  · refine ⟨hsus, ?_⟩
    cases hns : getNextSchedule sched cj reconLast now_ with
    | error u =>
      cases u
      rw [launchPhase_schedError sched env cj active reconLast now_ hsus hns] at h
      exact absurd h (by simp)
    | ok p =>
      obtain ⟨mr, nr⟩ := p
      cases mr with
      | none =>
        rw [launchPhase_missedNone sched env cj active reconLast now_ nr hsus hns] at h
        exact absurd h (by simp)
      | some m2 =>
        by_cases htl : tooLateCheck cj.spec.startingDeadlineSeconds m2 now_ = true
        · rw [launchPhase_tooLate sched env cj active reconLast now_ m2 nr hsus
            hns htl] at h
          exact absurd h (by simp)
        · by_cases hfb : cj.spec.concurrencyPolicy = forbidConcurrent ∧
              0 < active.length
          · rw [launchPhase_forbid sched env cj active reconLast now_ m2 nr hsus
              hns (by simpa using htl) hfb] at h
            exact absurd h (by simp)
          · rcases launchPhase_tail_launch sched env cj active reconLast now_ m2
                nr hsus hns (by simpa using htl) hfb with hc | hc
            · rw [hc] at h
              exact absurd h (by simp)
            · have hm : m2 = m := by
                rw [hc.1] at h
                exact Option.some.inj h
              subst hm
              exact ⟨nr, rfl, hc.2.1, hc.2.2⟩

/-- C9: at most one launch per missed activation.  If an invocation over
snapshot `jobs` (all external calls succeeding, fixed clock `now_`)
launches a job for missed run `m`, then a second invocation over the
post-state — any sub-collection of the old snapshot plus the newly
created job (which carries `m` in its scheduled-time annotation), with
whatever status the store now holds — launches nothing, returns the very
same requeue-after (`next now_ - now_`, the standard requeue, which is
also what the first invocation returned), and propagates no error.  The
sort permutations and the second environment are arbitrary (successful),
so no external change beyond the first invocation's own effects is
assumed. -/
theorem no_duplicate_launch (next : Int → Int)
    (sortF1 sortF2 : List Job → List Job) (env1 env2 : Env) (cj : CronJob)
    (s2 : CronJobStatus) (jobs : List Job) (now_ m : Int) (q : Job → Bool)
    (nm : Nat)
    (hmono : ∀ t, t < next t)
    (hok1 : Env.allOk env1) (hok2 : Env.allOk env2)
    (hlaunch : (reconcile (some next) sortF1 env1 cj jobs now_).launch = some m) :
    (reconcile (some next) sortF2 env2 { cj with status := s2 }
        (jobs.filter q ++ [constructJobForCronJob nm m]) now_).launch = none ∧
    (reconcile (some next) sortF2 env2 { cj with status := s2 }
        (jobs.filter q ++ [constructJobForCronJob nm m]) now_).requeueAfter =
      (reconcile (some next) sortF1 env1 cj jobs now_).requeueAfter ∧
    (reconcile (some next) sortF1 env1 cj jobs now_).requeueAfter =
      some (next now_ - now_) ∧
    (reconcile (some next) sortF2 env2 { cj with status := s2 }
        (jobs.filter q ++ [constructJobForCronJob nm m]) now_).propagatedError =
      false := by
  obtain ⟨hgo1, hlo1, hsu1, hdel1, hcon1, hcre1⟩ := hok1
  obtain ⟨hgo2, hlo2, hsu2, hdel2, hcon2, hcre2⟩ := hok2
  rw [reconcile_ok_eq (some next) sortF1 env1 cj jobs now_ hgo1 hlo1 hsu1]
    at hlaunch ⊢
  obtain ⟨hsus, nr, hns1, hrq1, herr1⟩ :=
    launchPhase_launch_inv (some next) env1 cj (classify jobs).1
      (updateStatus cj.status jobs).lastScheduleTime now_ m hlaunch
  have hnr : nr = next now_ :=
    getNextSchedule_ok_snd next cj (updateStatus cj.status jobs).lastScheduleTime
      now_ (some m, nr) hns1
  subst hnr
  rw [updateStatus_last cj.status jobs] at hns1
  -- facts about the first schedule computation, by cases on the
  -- reconstructed last-known time
  have hkey : (∀ t ∈ parsedTimes jobs, t < m) ∧ cj.creationTimestamp < m ∧
      now_ < next m := by
    cases hsp : specMaxParsed jobs with
    | none =>
      rw [hsp] at hns1
      have hcrr : computeRuns next cj.creationTimestamp now_ =
          .ok (some m, next now_) := hns1
      have hfacts :=
        computeRuns_ok_some next cj.creationTimestamp now_ m (next now_) hmono hcrr
      have hempty : parsedTimes jobs = [] := by
        have := (foldr_maxStep_none_iff (parsedTimes jobs)).mp hsp
        exact this
      refine ⟨?_, hfacts.1, hfacts.2.2.1⟩
      intro t ht
      rw [hempty] at ht
      simp at ht
    | some M =>
      rw [hsp] at hns1
      have hcrr : computeRuns next (max M cj.creationTimestamp) now_ =
          .ok (some m, next now_) := hns1
      have hfacts :=
        computeRuns_ok_some next (max M cj.creationTimestamp) now_ m (next now_)
          hmono hcrr
      refine ⟨?_, lt_of_le_of_lt (le_max_right M cj.creationTimestamp) hfacts.1,
        hfacts.2.2.1⟩
      intro t ht
      have htM : t ≤ M := foldr_maxStep_mem_le (parsedTimes jobs) M hsp t ht
      exact lt_of_le_of_lt (le_trans htM (le_max_left M cj.creationTimestamp))
        hfacts.1
  -- the reconstructed last-known time of the second invocation is m
  have hsp2 : specMaxParsed (jobs.filter q ++ [constructJobForCronJob nm m]) =
      some m := by
    refine specMaxParsed_post jobs q nm m (m - 1) ?_ (by omega)
    intro t ht
    have := hkey.1 t ht
    omega
  -- the second schedule computation finds nothing due
  have hns2 : getNextSchedule (some next) ({ cj with status := s2 } : CronJob)
      (some m) now_ = .ok (none, next now_) := by
    simp only [getNextSchedule]
    have hcm : max m ({ cj with status := s2 } : CronJob).creationTimestamp = m :=
      max_eq_left (le_of_lt hkey.2.1)
    rw [hcm]
    exact computeRuns_none next m now_ hkey.2.2
  rw [reconcile_ok_eq (some next) sortF2 env2 { cj with status := s2 }
    (jobs.filter q ++ [constructJobForCronJob nm m]) now_ hgo2 hlo2 hsu2]
  rw [updateStatus_last, hsp2]
  rw [launchPhase_missedNone (some next) env2 { cj with status := s2 }
    (classify (jobs.filter q ++ [constructJobForCronJob nm m])).1 (some m) now_
    (next now_) hsus hns2]
  exact ⟨rfl, by rw [hrq1], hrq1, rfl⟩

/-- Witness for `no_duplicate_launch`: the Replace fixture with an empty
snapshot launches the run missed at time 1; rerunning on the post-state
(just the created job) launches nothing and repeats the requeue. -/
theorem no_duplicate_launch_witness :
    ((reconcile (some succNext) stableSortJobs envOk cjReplace [] 1).launch =
        some 1 ∧
      Env.allOk envOk) ∧
    ((reconcile (some succNext) stableSortJobs envOk
        { cjReplace with status := { lastScheduleTime := none, active := [] } }
        (([] : List Job).filter (fun _ => true) ++ [constructJobForCronJob 99 1])
        1).launch = none ∧
      (reconcile (some succNext) stableSortJobs envOk
        { cjReplace with status := { lastScheduleTime := none, active := [] } }
        (([] : List Job).filter (fun _ => true) ++ [constructJobForCronJob 99 1])
        1).requeueAfter =
        (reconcile (some succNext) stableSortJobs envOk cjReplace [] 1).requeueAfter ∧
      (reconcile (some succNext) stableSortJobs envOk cjReplace [] 1).requeueAfter =
        some (succNext 1 - 1) ∧
      (reconcile (some succNext) stableSortJobs envOk
        { cjReplace with status := { lastScheduleTime := none, active := [] } }
        (([] : List Job).filter (fun _ => true) ++ [constructJobForCronJob 99 1])
        1).propagatedError = false) := by
  have hmono : ∀ t : Int, t < succNext t := fun t => by
    unfold succNext
    omega
  have hok : Env.allOk envOk := ⟨rfl, rfl, rfl, fun n => rfl, rfl, rfl⟩
  have hl : (reconcile (some succNext) stableSortJobs envOk cjReplace [] 1).launch =
      some 1 := by decide
  exact ⟨⟨hl, hok⟩,
    no_duplicate_launch succNext stableSortJobs stableSortJobs envOk envOk
      cjReplace { lastScheduleTime := none, active := [] } [] 1 1 (fun _ => true)
      99 hmono hok hok hl⟩

/-- C10: the admission defaulting sets ConcurrencyPolicy to Allow when
empty, Suspend to false when nil, SuccessfulJobsHistoryLimit to 3 when
nil and FailedJobsHistoryLimit to 1 when nil, and leaves every field
that was already set — and every other field — unchanged. -/
theorem webhook_default_fields (s : CronJobSpec) :
    webhookDefault s =
      { schedule := s.schedule,
        concurrencyPolicy :=
          if s.concurrencyPolicy = "" then allowConcurrent
          else s.concurrencyPolicy,
        suspend := if s.suspend = none then some false else s.suspend,
        startingDeadlineSeconds := s.startingDeadlineSeconds,
        successfulJobsHistoryLimit :=
          if s.successfulJobsHistoryLimit = none then some 3
          else s.successfulJobsHistoryLimit,
        failedJobsHistoryLimit :=
          if s.failedJobsHistoryLimit = none then some 1
          else s.failedJobsHistoryLimit } := by
  unfold webhookDefault
  by_cases h1 : s.concurrencyPolicy = "" <;>
  by_cases h2 : s.suspend = none <;>
  by_cases h3 : s.successfulJobsHistoryLimit = none <;>
  by_cases h4 : s.failedJobsHistoryLimit = none <;>
  simp [h1, h2, h3, h4]

/-- C2, counterexample.  In the successful-history trimming path the
source checks the raw deletion error (`(err) != nil`,
`cronjob_controller.go` line 205) rather than
`client.IgnoreNotFound(err) != nil`, so a not-found outcome IS logged as
a deletion failure ("unable to delete old successful job").  This
refutes the claim that on every deletion path a not-found outcome is
never logged as a deletion failure. -/
theorem successful_trim_notFound_logged :
    ¬(handleSuccessfulHistoryDelete DeleteOutcome.notFound).loggedFailure = false := by
  decide

/-- C2, amended.  A not-found deletion outcome never fails or aborts the
invocation on any path, and is not logged as a failure in the
failed-history and Replace-preemption paths; in the successful-history
path, however, it is logged as a deletion failure (though still
harmless).  At the invocation level, replacing every delete outcome by
not-found instead of success changes nothing observable except the
failure log: status patch, attempted deletions, launch, requeue and
propagated error are identical. -/
theorem notFound_delete_is_success :
    (∀ o, (handleFailedHistoryDelete o).abortsInvocation = false) ∧
    (∀ o, (handleSuccessfulHistoryDelete o).abortsInvocation = false) ∧
    (handleFailedHistoryDelete .notFound).loggedFailure = false ∧
    (handleReplaceDelete .notFound).loggedFailure = false ∧
    (handleReplaceDelete .notFound).abortsInvocation = false ∧
    (handleSuccessfulHistoryDelete .notFound).loggedFailure = true ∧
    ∀ (sched : Option (Int → Int)) (sortF : List Job → List Job) (env : Env)
      (cj : CronJob) (jobs : List Job) (now_ : Int),
      Decision.core
          (reconcile sched sortF { env with deleteOutcome := fun _ => .notFound } cj jobs now_) =
        Decision.core
          (reconcile sched sortF { env with deleteOutcome := fun _ => .ok } cj jobs now_) := by
  refine ⟨fun o => rfl, fun o => rfl, rfl, rfl, rfl, rfl, ?_⟩
  intro sched sortF env cj jobs now_
  exact reconcile_delete_outcomes_core sched sortF env cj jobs now_ _ _
    (fun n => by decide) (fun n => by decide)

/-- Witness for `trim_counts_and_retention`: the concrete 7-job group
sorted by the code's own small-slice sort, with retention limit 2. -/
theorem trim_counts_and_retention_witness :
    ((goSortSmall c1Jobs).Perm c1Jobs ∧ (0 : Int) ≤ 2) ∧
    ((selectForDeletion (goSortSmall c1Jobs) 2).length =
        (max ((c1Jobs.length : Int) - 2) 0).toNat ∧
      (retainedAfterTrim (goSortSmall c1Jobs) 2).length =
        (min (c1Jobs.length : Int) 2).toNat ∧
      ∀ r ∈ retainedAfterTrim (goSortSmall c1Jobs) 2,
        ∀ d ∈ selectForDeletion (goSortSmall c1Jobs) 2, jobLess r d = false) :=
  ⟨⟨by decide, by decide⟩,
    trim_counts_and_retention c1Jobs (goSortSmall c1Jobs) 2 (by decide)
      (by decide) (by decide) (by decide) (by decide)⟩
